import Mathlib

/-!
The xv6-riscv console, UART driver and page allocator: a shallow embedding

The definitions below transcribe `kernel/console.c`, `kernel/uart.c` and
`kernel/kalloc.c`.

* C `uint` cursors (`cons.r`, `cons.w`, `cons.e`) are naturals with every
  arithmetic step reduced modulo `2^32`; the `uint64` cursors of the transmit
  buffer (`uart_tx_r`, `uart_tx_w`) are reduced modulo `2^64`.
* A `char` cell of a buffer holds a natural below 256; a store truncates
  with `% 256`.
* Effects (calls of `consputc`, writes of the THR register, `wakeup` calls)
  are returned as lists, in program order.
* A function that can block in `sleep` returns an outcome saying whether it
  returned or is suspended; the code between two lock hand-overs is one
  function application.
-/

namespace Xv6

/-! ## Machine arithmetic -/

/-- Addition of two `uint` values. -/
def add32 (a b : Nat) : Nat := (a + b) % 4294967296

/-- Subtraction of two `uint` values (wraps below zero). -/
def sub32 (a b : Nat) : Nat := (a + 4294967296 - b) % 4294967296

/-- Addition of two `uint64` values. -/
def add64 (a b : Nat) : Nat := (a + b) % 18446744073709551616

/-- Subtraction of two `uint64` values (wraps below zero). -/
def sub64 (a b : Nat) : Nat := (a + 18446744073709551616 - b) % 18446744073709551616

/-! ## Constants of `console.c` -/

/-- The out-of-band value `#define BACKSPACE 0x100`. -/
def BACKSPACE : Nat := 0x100

/-- The macro `C(x)`, defined as `(x)` minus the code 64 of the at sign: the
control character of a letter. -/
def C (x : Nat) : Nat := x - 64

/-- The capacity `#define INPUT_BUF_SIZE 128`. -/
def INPUT_BUF_SIZE : Nat := 128

/-- The capacity `#define UART_TX_BUF_SIZE 32`. -/
def UART_TX_BUF_SIZE : Nat := 32

/-- The array slot `i % INPUT_BUF_SIZE` of `cons.buf`. -/
def slot (i : Nat) : Fin 128 := ⟨i % 128, Nat.mod_lt i (by decide)⟩

/-- The array slot `i % UART_TX_BUF_SIZE` of `uart_tx_buf`. -/
def txslot (i : Nat) : Fin 32 := ⟨i % 32, Nat.mod_lt i (by decide)⟩

/-! ## Processes and rendezvous channels -/

/-- The two addresses used as sleep/wakeup channels by the drivers. -/
inductive Chan where
  | cons_r
  | uart_tx_r
  deriving DecidableEq, Repr

/-- The `enum procstate` of `proc.h`. -/
inductive Procstate where
  | UNUSED
  | USED
  | SLEEPING
  | RUNNABLE
  | RUNNING
  | ZOMBIE
  deriving DecidableEq, Repr

/-- The fields of `struct proc` (`proc.h`) that the drivers depend on. -/
structure Proc where
  state : Procstate
  chan : Option Chan
  killed : Int
  deriving DecidableEq, Repr

/-- Modelled from the spec: `killed()` of `proc.c`, which is not among the
sources; it reports the `killed` field of the task. -/
def killed (p : Proc) : Int := p.killed

/-- Modelled from the spec: the task-side effect of `sleep(chan, lk)` of
`proc.c`, which is not among the sources; the task records the channel and
enters the sleeping state (the lock hand-over is done by the model of the caller). -/
def sleep (chan : Chan) (p : Proc) : Proc :=
  { p with state := Procstate.SLEEPING, chan := some chan }

/-! ## The console (`console.c`) -/

/-- The anonymous struct `cons`: the lock (held or free), the input buffer
and the read, write and edit cursors. -/
structure Cons where
  lock : Bool
  buf : Fin 128 → Nat
  r : Nat
  w : Nat
  e : Nat

/-- Modelled from the spec: `acquire(&cons.lock)` of `spinlock.c`, which is
not among the sources; the caller continues holding the lock. -/
def Cons.acquire (s : Cons) : Cons := { s with lock := true }

/-- Modelled from the spec: `release(&cons.lock)` of `spinlock.c`, which is
not among the sources; the lock becomes free. -/
def Cons.release (s : Cons) : Cons := { s with lock := false }

/-- The state at boot: all of `cons` is zero-initialised. -/
def Cons.init : Cons := { lock := false, buf := fun _ => 0, r := 0, w := 0, e := 0 }

/-- The list of values handed to `uartputc_sync` by `consputc(c)`. -/
def consputc (c : Nat) : List Nat :=
  if c = BACKSPACE then [8, 32, 8] else [c]

/-- What one call of `consoleintr` leaves behind: the console state, the
arguments of its `consputc` calls, its `wakeup` calls and the number of
`procdump` calls. -/
structure IntrResult where
  s : Cons
  echo : List Nat
  wakeups : List Chan
  procdumps : Nat

/-- The kill-line loop of `consoleintr` (the case of Ctrl-U):
`while(cons.e != cons.w && cons.buf[(cons.e-1) % INPUT_BUF_SIZE] != newline)`.
The first argument bounds the number of iterations; `consoleintr` passes
`cons.e - cons.w`, which the loop cannot exceed. -/
def killLine : Nat → Cons → List Nat → Cons × List Nat
  | 0, s, out => (s, out)
  | fuel + 1, s, out =>
    if s.e ≠ s.w ∧ s.buf (slot (sub32 s.e 1)) ≠ 10 then
      killLine fuel { s with e := sub32 s.e 1 } (out ++ [BACKSPACE])
    else (s, out)

/-- The function `consoleintr(int c)` for `c ≥ 0` (its caller `uartintr`
passes the bytes read from the device). -/
def consoleintr (c : Nat) (s0 : Cons) : IntrResult :=
  let s := s0.acquire
  if c = C 80 then
    { s := s.release, echo := [], wakeups := [], procdumps := 1 }
  else if c = C 85 then
    let k := killLine (sub32 s.e s.w) s []
    { s := k.1.release, echo := k.2, wakeups := [], procdumps := 0 }
  else if c = C 72 ∨ c = 127 then
    if s.e ≠ s.w then
      { s := { s with e := sub32 s.e 1 }.release, echo := [BACKSPACE], wakeups := [],
        procdumps := 0 }
    else
      { s := s.release, echo := [], wakeups := [], procdumps := 0 }
  else if c ≠ 0 ∧ sub32 s.e s.r < INPUT_BUF_SIZE then
    let c1 := if c = 13 then 10 else c
    let s1 : Cons := { s with buf := Function.update s.buf (slot s.e) (c1 % 256),
                              e := add32 s.e 1 }
    if c1 = 10 ∨ c1 = C 68 ∨ sub32 s1.e s1.r = INPUT_BUF_SIZE then
      { s := { s1 with w := s1.e }.release, echo := [c1], wakeups := [Chan.cons_r],
        procdumps := 0 }
    else
      { s := s1.release, echo := [c1], wakeups := [], procdumps := 0 }
  else
    { s := s.release, echo := [], wakeups := [], procdumps := 0 }

/-- How a stretch of `consoleread` ends: it returned a value, or it is
suspended in `sleep(&cons.r, &cons.lock)` with `n` bytes still wanted. -/
inductive ReadOutcome where
  | ret (v : Int)
  | sleeping (p : Proc) (n : Nat)
  deriving DecidableEq, Repr

/-- What a stretch of `consoleread` leaves behind: the console state, the
bytes copied out to the caller so far (in order) and how it ended. -/
structure ReadResult where
  s : Cons
  dst : List Nat
  outcome : ReadOutcome

/-- The loop `while(n > 0)` of `consoleread`, entered with the lock held,
`n` bytes still wanted out of `target` and `dst` already delivered.
`copyout i` tells whether `either_copyout` succeeds for the byte at offset
`i` of the destination. The value returned is `target - n`; within a call
`0 ≤ n ≤ target < 2^31`, so the subtraction does not wrap. -/
def consoleread_loop (p : Proc) (copyout : Nat → Bool) (target : Nat) :
    Nat → Cons → List Nat → ReadResult
  | 0, s, dst => { s := s.release, dst := dst, outcome := ReadOutcome.ret (target - 0 : Nat) }
  | n + 1, s, dst =>
    if s.r = s.w then
      if killed p ≠ 0 then
        { s := s.release, dst := dst, outcome := ReadOutcome.ret (-1) }
      else
        { s := s.release, dst := dst,
          outcome := ReadOutcome.sleeping (sleep Chan.cons_r p) (n + 1) }
    else
      let c := s.buf (slot s.r)
      let s1 : Cons := { s with r := add32 s.r 1 }
      if c = C 68 then
        if n + 1 < target then
          { s := { s1 with r := sub32 s1.r 1 }.release, dst := dst,
            outcome := ReadOutcome.ret (target - (n + 1) : Nat) }
        else
          { s := s1.release, dst := dst, outcome := ReadOutcome.ret (target - (n + 1) : Nat) }
      else if copyout dst.length = false then
        { s := s1.release, dst := dst, outcome := ReadOutcome.ret (target - (n + 1) : Nat) }
      else if c = 10 then
        { s := s1.release, dst := dst ++ [c], outcome := ReadOutcome.ret (target - n : Nat) }
      else
        consoleread_loop p copyout target n s1 (dst ++ [c])

/-- The function `consoleread(user_dst, dst, n)` from its entry up to its
return or its first `sleep`, for a request `n ≥ 0` (a negative `n` skips the
loop just as `0` does). -/
def consoleread (p : Proc) (copyout : Nat → Bool) (n : Nat) (s : Cons) : ReadResult :=
  consoleread_loop p copyout n n s.acquire []

/-- The continuation of a `consoleread` call that was suspended in `sleep`:
`sleep` returns with the lock re-acquired and the test `cons.r == cons.w` is
made again, with the locals `target`, `n` and the bytes delivered so far. -/
def consoleread_wakeup (p : Proc) (copyout : Nat → Bool) (target n : Nat) (dst : List Nat)
    (s : Cons) : ReadResult :=
  consoleread_loop p copyout target n s.acquire dst

/-! ## The UART driver (`uart.c`) -/

/-- The globals of the transmit side: `uart_tx_lock` (held or free),
`uart_tx_buf`, `uart_tx_w` and `uart_tx_r`. -/
structure Uart where
  lock : Bool
  buf : Fin 32 → Nat
  w : Nat
  r : Nat

/-- Modelled from the spec: `acquire(&uart_tx_lock)` of `spinlock.c`, which is
not among the sources; the caller continues holding the lock. -/
def Uart.acquire (s : Uart) : Uart := { s with lock := true }

/-- Modelled from the spec: `release(&uart_tx_lock)` of `spinlock.c`, which is
not among the sources; the lock becomes free. -/
def Uart.release (s : Uart) : Uart := { s with lock := false }

/-- The state at boot: the globals are zero-initialised. -/
def Uart.init : Uart := { lock := false, buf := fun _ => 0, w := 0, r := 0 }

/-- What one call of `uartstart` leaves behind: the transmit state, the
bytes written to THR (in order) and its `wakeup` calls. -/
structure StartResult where
  s : Uart
  thr : List Nat
  wakeups : List Chan

/-- The loop `while(1)` of `uartstart`. `idle i` tells whether the `i`-th
reading of LSR in this call has `LSR_TX_IDLE` set. The first argument bounds
the number of iterations; `uartstart` passes `uart_tx_w - uart_tx_r`, the
number of buffered bytes, which the loop cannot exceed. -/
def uartstart_loop (idle : Nat → Bool) :
    Nat → Nat → Uart → List Nat → List Chan → StartResult
  | 0, _, s, thr, wk => { s := s, thr := thr, wakeups := wk }
  | fuel + 1, i, s, thr, wk =>
    if s.w = s.r then { s := s, thr := thr, wakeups := wk }
    else if idle i = false then { s := s, thr := thr, wakeups := wk }
    else
      uartstart_loop idle fuel (i + 1) { s with r := add64 s.r 1 }
        (thr ++ [s.buf (txslot s.r)]) (wk ++ [Chan.uart_tx_r])

/-- The function `uartstart()`; the caller holds `uart_tx_lock`. -/
def uartstart (idle : Nat → Bool) (s : Uart) : StartResult :=
  uartstart_loop idle (sub64 s.w s.r) 0 s [] []

/-- The two statements `uart_tx_buf[uart_tx_w % UART_TX_BUF_SIZE] = c;`
`uart_tx_w += 1;` of `uartputc`. -/
def Uart.store (s : Uart) (c : Nat) : Uart :=
  { s with buf := Function.update s.buf (txslot s.w) (c % 256), w := add64 s.w 1 }

/-- How a stretch of `uartputc` ends: it returned (with the THR writes and
wakeups of its `uartstart`), it is suspended in
`sleep(&uart_tx_r, &uart_tx_lock)`, or it spins forever in `for(;;)`. -/
inductive PutOutcome where
  | done (thr : List Nat) (wakeups : List Chan)
  | sleeping (p : Proc)
  | spinning
  deriving DecidableEq, Repr

/-- What a stretch of `uartputc` leaves behind. -/
structure PutResult where
  s : Uart
  outcome : PutOutcome

/-- The part of `uartputc(c)` from the test of the loop
`while(uart_tx_w == uart_tx_r + UART_TX_BUF_SIZE)` on, entered with the lock
held by the task `p`. -/
def uartputc_loop (p : Proc) (c : Nat) (idle : Nat → Bool) (s : Uart) : PutResult :=
  if s.w = add64 s.r UART_TX_BUF_SIZE then
    { s := s.release, outcome := PutOutcome.sleeping (sleep Chan.uart_tx_r p) }
  else
    let d := uartstart idle (s.store c)
    { s := d.s.release, outcome := PutOutcome.done d.thr d.wakeups }

/-- The function `uartputc(int c)` from its entry up to its return, its first
`sleep` or its endless loop; `panicked` is the global flag of `printf.c`. -/
def uartputc (panicked : Int) (p : Proc) (c : Nat) (idle : Nat → Bool) (s : Uart) : PutResult :=
  let s1 := s.acquire
  if panicked ≠ 0 then { s := s1, outcome := PutOutcome.spinning }
  else uartputc_loop p c idle s1

/-- The continuation of a `uartputc` call that was suspended in `sleep`:
`sleep` returns with the lock re-acquired and the loop test is made again. -/
def uartputc_wakeup (p : Proc) (c : Nat) (idle : Nat → Bool) (s : Uart) : PutResult :=
  uartputc_loop p c idle s.acquire

/-- The function `uartgetc()` over the queue of bytes pending in the device:
`-1` when the receive-ready bit of LSR is clear, else the byte read from RHR,
which leaves the queue. -/
def uartgetc (rx : List Nat) : Int × List Nat :=
  match rx with
  | [] => (-1, [])
  | b :: rest => (((b % 256 : Nat) : Int), rest)

/-- What one call of `uartintr` leaves behind: console and transmit state,
the bytes still pending in the device, the `consputc` arguments of the echo,
the bytes written to THR by `uartstart`, the `wakeup` calls and the number of
`procdump` calls. -/
structure UartIntrResult where
  cons : Cons
  tx : Uart
  rx : List Nat
  echo : List Nat
  thr : List Nat
  wakeups : List Chan
  procdumps : Nat

/-- The receive loop of `uartintr`: `uartgetc` until it returns `-1`, each
byte handed to `consoleintr`. The first argument bounds the number of
iterations; `uartintr` passes one more than the number of pending bytes. -/
def uartintr_loop : Nat → List Nat → Cons → List Nat → List Chan → Nat →
    List Nat × Cons × List Nat × List Chan × Nat
  | 0, rx, cs, echo, wk, pd => (rx, cs, echo, wk, pd)
  | fuel + 1, rx, cs, echo, wk, pd =>
    let g := uartgetc rx
    if g.1 = -1 then (g.2, cs, echo, wk, pd)
    else
      let k := consoleintr g.1.toNat cs
      uartintr_loop fuel g.2 k.s (echo ++ k.echo) (wk ++ k.wakeups) (pd + k.procdumps)

/-- The function `uartintr()`: the receive loop, then `uartstart` under
`uart_tx_lock`. -/
def uartintr (rx : List Nat) (idle : Nat → Bool) (cs : Cons) (tx : Uart) : UartIntrResult :=
  let l := uartintr_loop (rx.length + 1) rx cs [] [] 0
  let d := uartstart idle tx.acquire
  { cons := l.2.1, tx := d.s.release, rx := l.1, echo := l.2.2.1, thr := d.thr,
    wakeups := l.2.2.2.1 ++ d.wakeups, procdumps := l.2.2.2.2 }

/-- The loop of `consolewrite`, for calls in which every `uartputc` returns:
`copyin i` is the byte fetched by `either_copyin` at offset `i`, or `none`
when it fails. The first argument counts the iterations left (`n - i`). The
result is the list of bytes handed to `uartputc` and the value returned. -/
def consolewrite_loop (copyin : Nat → Option Nat) : Nat → Nat → List Nat → List Nat × Int
  | 0, i, out => (out, (i : Int))
  | fuel + 1, i, out =>
    match copyin i with
    | none => (out, (i : Int))
    | some c => consolewrite_loop copyin fuel (i + 1) (out ++ [c])

/-- The function `consolewrite(user_src, src, n)`: the loop runs for `i` from 0
while `i < n`. -/
def consolewrite (copyin : Nat → Option Nat) (n : Int) : List Nat × Int :=
  consolewrite_loop copyin n.toNat 0 []
/-! ## Well-formedness, regions and runs -/

/-- The cursors are `uint` values. -/
def Cons.WF (s : Cons) : Prop := s.r < 4294967296 ∧ s.w < 4294967296 ∧ s.e < 4294967296

instance (s : Cons) : Decidable s.WF := by unfold Cons.WF; infer_instance

/-- The bytes stored at the cursor positions `r, r+1, ..., r+j-1`, each
addressed modulo the capacity. -/
def Cons.region (s : Cons) (j : Nat) : List Nat :=
  (List.range j).map (fun i => s.buf (slot (s.r + i)))

/-- The byte that the default branch of `consoleintr` echoes and stores:
carriage return becomes newline. -/
def normalized (c : Nat) : Nat := if c = 13 then 10 else c

/-- The input `c` reaches the default branch of `consoleintr` and is stored:
it is none of Ctrl-P, Ctrl-U, Ctrl-H and 0x7f, it is not zero, and the buffer
is not full. -/
def Stored (c : Nat) (s : Cons) : Prop :=
  c ≠ 16 ∧ c ≠ 21 ∧ c ≠ 8 ∧ c ≠ 127 ∧ c ≠ 0 ∧ sub32 s.e s.r < 128

/-- The input `c` is stored and completes a line: the stored byte is newline
or Ctrl-D, or the buffer is full once it is stored. -/
def LineCompleting (c : Nat) (s : Cons) : Prop :=
  Stored c s ∧ (normalized c = 10 ∨ normalized c = 4 ∨ sub32 (add32 s.e 1) s.r = 128)

instance (c : Nat) (s : Cons) : Decidable (Stored c s) := by unfold Stored; infer_instance

instance (c : Nat) (s : Cons) : Decidable (LineCompleting c s) := by
  unfold LineCompleting; infer_instance

/-- One lock-protected stretch of console activity: a call of `consoleintr`,
a call of `consoleread` up to its return or first sleep, or the continuation
of a suspended `consoleread` (with any saved locals, so that the runs below
include every run of the kernel, with any number of readers). -/
inductive ConsStep where
  | intr (c : Nat)
  | read (p : Proc) (copyout : Nat → Bool) (n : Nat)
  | wake (p : Proc) (copyout : Nat → Bool) (target n : Nat) (dst : List Nat)

/-- The console state after one step. -/
def ConsStep.apply : ConsStep → Cons → Cons
  | ConsStep.intr c, s => (consoleintr c s).s
  | ConsStep.read p copyout n, s => (consoleread p copyout n s).s
  | ConsStep.wake p copyout target n dst, s => (consoleread_wakeup p copyout target n dst s).s

/-- The console state after a sequence of steps. -/
def consRun (t : List ConsStep) (s : Cons) : Cons := t.foldl (fun a st => st.apply a) s

/-- The console state after the input bytes `cs` have been handed to
`consoleintr` one by one. -/
def feed (cs : List Nat) (s : Cons) : Cons := cs.foldl (fun a c => (consoleintr c a).s) s

/-- The number of `consoleintr` calls in a sequence of steps: an upper bound
on the number of bytes stored, the only way a cursor grows. -/
def inputs : List ConsStep → Nat
  | [] => 0
  | ConsStep.intr _ :: t => inputs t + 1
  | _ :: t => inputs t

/-- The cursors read as counts that have not wrapped: in order, at most a
capacity apart, and `e` at most `k`. -/
def CursorsOk (s : Cons) (k : Nat) : Prop :=
  s.r ≤ s.w ∧ s.w ≤ s.e ∧ s.e ≤ s.r + 128 ∧ s.e ≤ k

instance (s : Cons) (k : Nat) : Decidable (CursorsOk s k) := by
  unfold CursorsOk; infer_instance

/-- The cursor invariant in `uint` arithmetic, which holds whether or not a
cursor has wrapped: `w - r ≤ e - r ≤ 128` modulo `2^32`. -/
def CursorsMod (s : Cons) : Prop :=
  s.WF ∧ sub32 s.w s.r ≤ sub32 s.e s.r ∧ sub32 s.e s.r ≤ 128

instance (s : Cons) : Decidable (CursorsMod s) := by unfold CursorsMod; infer_instance

/-- The cursors are `uint64` values. -/
def Uart.WF (s : Uart) : Prop := s.r < 18446744073709551616 ∧ s.w < 18446744073709551616

instance (s : Uart) : Decidable s.WF := by unfold Uart.WF; infer_instance

/-- The buffered bytes, at the cursor positions `uart_tx_r .. uart_tx_w - 1`,
each addressed modulo the capacity. -/
def Uart.pending (s : Uart) : List Nat :=
  (List.range (sub64 s.w s.r)).map (fun i => s.buf (txslot (s.r + i)))

/-- The transmit side together with the console it echoes for, and the log of
every byte written to THR by `uartstart` so far. -/
structure TxSys where
  cons : Cons
  tx : Uart
  sent : List Nat

/-- One lock-protected stretch of activity on the transmit buffer. -/
inductive TxStep where
  | putc (p : Proc) (c : Nat) (idle : Nat → Bool)
  | wake (p : Proc) (c : Nat) (idle : Nat → Bool)
  | intr (rx : List Nat) (idle : Nat → Bool)
  | start (idle : Nat → Bool)

/-- The THR writes of an outcome of `uartputc`. -/
def PutOutcome.thr : PutOutcome → List Nat
  | PutOutcome.done thr _ => thr
  | _ => []

/-- The effect of one step, whether or not a `uartputc` in it blocks. -/
def TxStep.apply : TxStep → TxSys → TxSys
  | TxStep.putc p c idle, k =>
    let d := uartputc 0 p c idle k.tx
    { k with tx := d.s, sent := k.sent ++ d.outcome.thr }
  | TxStep.wake p c idle, k =>
    let d := uartputc_wakeup p c idle k.tx
    { k with tx := d.s, sent := k.sent ++ d.outcome.thr }
  | TxStep.intr rx idle, k =>
    let d := uartintr rx idle k.cons k.tx
    { cons := d.cons, tx := d.tx, sent := k.sent ++ d.thr }
  | TxStep.start idle, k =>
    let d := uartstart idle k.tx
    { k with tx := d.s, sent := k.sent ++ d.thr }

/-- A run in which any call may block. -/
def txRunAll (t : List TxStep) (k : TxSys) : TxSys := t.foldl (fun a st => st.apply a) k

/-- A run in which no `uartputc` call blocks: the result is `none` as soon as
one would (or a suspended call, of which there is none, is resumed). -/
def txRun : List TxStep → TxSys → Option TxSys
  | [], k => some k
  | TxStep.putc p c idle :: t, k =>
    match (uartputc 0 p c idle k.tx).outcome with
    | PutOutcome.done _ _ => txRun t ((TxStep.putc p c idle).apply k)
    | _ => none
  | TxStep.wake _ _ _ :: _, _ => none
  | st :: t, k => txRun t (st.apply k)

/-- The bytes submitted by the `uartputc` calls of a trace, each truncated to
eight bits, in submission order. -/
def submitted : List TxStep → List Nat
  | [] => []
  | TxStep.putc _ c _ :: t => (c % 256) :: submitted t
  | _ :: t => submitted t

/-- The number of `uartputc` stretches (calls and continuations) in a
sequence of steps: an upper bound on the number of bytes stored, the only way
`uart_tx_w` grows. -/
def puts : List TxStep → Nat
  | [] => 0
  | TxStep.putc _ _ _ :: t => puts t + 1
  | TxStep.wake _ _ _ :: t => puts t + 1
  | _ :: t => puts t

/-- The transmit cursors are `uint64` values at most a capacity apart. -/
def TxInv (s : Uart) : Prop := s.WF ∧ sub64 s.w s.r ≤ 32

instance (s : Uart) : Decidable (TxInv s) := by unfold TxInv; infer_instance

/-- The transmit cursors, read as counts that have not wrapped: in order, at
most a capacity apart, and `uart_tx_w` at most `n`. -/
def TxInvN (s : Uart) (n : Nat) : Prop := s.r ≤ s.w ∧ s.w ≤ s.r + 32 ∧ s.w ≤ n

instance (s : Uart) (n : Nat) : Decidable (TxInvN s n) := by unfold TxInvN; infer_instance

/-! ## Synchronous output and the endings of a read -/

/-- How a call of `uartputc_sync` ends: it returned after writing THR, it is
still in the loop that waits for `LSR_TX_IDLE`, or it spins forever in
`for(;;)`. -/
inductive SyncOutcome where
  | done
  | waiting
  | spinning
  deriving DecidableEq, Repr

/-- What a call of `uartputc_sync` leaves behind: the nesting depth of
`push_off` on this core, the bytes written to THR and how the call ended. -/
structure SyncResult where
  noff : Nat
  thr : List Nat
  outcome : SyncOutcome
  deriving DecidableEq, Repr

/-- The loop `while((ReadReg(LSR) & LSR_TX_IDLE) == 0)` of `uartputc_sync`
over the first `fuel` readings of LSR from reading `i` on: the index of the
first reading that has `LSR_TX_IDLE` set, or `none` when all of them are
busy and the loop is still running. -/
def uartputc_sync_wait (idle : Nat → Bool) : Nat → Nat → Option Nat
  | 0, _ => none
  | fuel + 1, i => if idle i = false then uartputc_sync_wait idle fuel (i + 1) else some i

/-- The function `uartputc_sync(int c)`, observed for `fuel` readings of
LSR; `panicked` is the global flag of `printf.c` and `noff` the nesting depth
kept by `push_off` and `pop_off`. Modelled from the spec: `push_off` and
`pop_off` of `spinlock.c`, which is not among the sources, raise and lower the
per-core depth of interrupt-disable requests. -/
def uartputc_sync (panicked : Int) (idle : Nat → Bool) (fuel : Nat) (c : Nat) (noff : Nat) :
    SyncResult :=
  let n1 := noff + 1
  if panicked ≠ 0 then { noff := n1, thr := [], outcome := SyncOutcome.spinning }
  else
    match uartputc_sync_wait idle fuel 0 with
    | none => { noff := n1, thr := [], outcome := SyncOutcome.waiting }
    | some _ => { noff := n1 - 1, thr := [c % 256], outcome := SyncOutcome.done }

/-- The loop of `consoleread`, with `n > 0` bytes still wanted out of
`target`, meets Ctrl-D at the read cursor before any byte has been produced in
the call (`n` is not below `target`): the call ends by consuming Ctrl-D as its
first byte. -/
def EofConsumedFirst (target n : Nat) (s : Cons) : Prop :=
  0 < n ∧ s.r ≠ s.w ∧ s.buf (slot s.r) = 4 ∧ ¬ n < target

/-- The stretch of `consoleread` ends because a copy-out fails after it has
delivered `d` bytes: bytes are still wanted, committed input remains, the last
byte delivered is not a newline, the next byte is not Ctrl-D, and its copy to
the caller fails. -/
def CopyFailedAfter (copyout : Nat → Bool) (n : Nat) (s : Cons) (dst : List Nat) (d : Nat) :
    Prop :=
  d < n ∧ d < sub32 s.w s.r ∧ (d = 0 ∨ s.buf (slot (s.r + (d - 1))) ≠ 10) ∧
    s.buf (slot (s.r + d)) ≠ 4 ∧ copyout (dst.length + d) = false

instance (target n : Nat) (s : Cons) : Decidable (EofConsumedFirst target n s) := by
  unfold EofConsumedFirst; infer_instance

instance (copyout : Nat → Bool) (n : Nat) (s : Cons) (dst : List Nat) (d : Nat) :
    Decidable (CopyFailedAfter copyout n s dst d) := by
  unfold CopyFailedAfter; infer_instance

/-! ## The page allocator (`kalloc.c`) -/

/-- Modelled from the spec: the page size `PGSIZE` of `riscv.h`, which is not
among the sources; `kalloc.c` states that pages have 4096 bytes. -/
def PGSIZE : Nat := 4096

/-- The constant `#define KERNBASE 0x80000000L` of `memlayout.h`. -/
def KERNBASE : Nat := 0x80000000

/-- The constant `#define PHYSTOP (KERNBASE + 128*1024*1024)` of `memlayout.h`. -/
def PHYSTOP : Nat := KERNBASE + 128 * 1024 * 1024

/-- The anonymous struct `kmem` together with the memory that holds the list
nodes: the lock (held or free), the pointer `freelist` (0 is the null
pointer), and for every address `a` the field `((struct run*)a)->next`. -/
structure Kmem where
  lock : Bool
  freelist : Nat
  next : Nat → Nat

/-- Modelled from the spec: `acquire(&kmem.lock)` of `spinlock.c`, which is
not among the sources; the caller continues holding the lock. -/
def Kmem.acquire (k : Kmem) : Kmem := { k with lock := true }

/-- Modelled from the spec: `release(&kmem.lock)` of `spinlock.c`, which is
not among the sources; the lock becomes free. -/
def Kmem.release (k : Kmem) : Kmem := { k with lock := false }

/-- The value read from a `next` field all of whose eight bytes are `v`. -/
def fill (v : Nat) : Nat := (v % 256) * 0x0101010101010101

/-- Modelled from the spec: `memset(pa, v, PGSIZE)` of `string.c`, which is
not among the sources, as seen through the `next` fields: a field that lies
inside the page `pa .. pa + PGSIZE - 1` now reads as eight bytes `v`; every
other field is as before (list nodes are page-aligned, so none straddles the
end of a page). -/
def memset (pa v : Nat) (next : Nat → Nat) : Nat → Nat :=
  fun a => if pa ≤ a ∧ a + 8 ≤ pa + PGSIZE then fill v else next a

/-- What a call of `kfree` leaves behind: the allocator state, and whether
the call ended in `panic`, which halts the kernel. -/
structure KfreeResult where
  k : Kmem
  panic : Bool

/-- The function `kfree(void *pa)`; `kernel_end` is the address of the linker
symbol `end`, the first address after the kernel. -/
def kfree (kernel_end : Nat) (pa : Nat) (k : Kmem) : KfreeResult :=
  if pa % PGSIZE ≠ 0 ∨ pa < kernel_end ∨ pa ≥ PHYSTOP then
    { k := k, panic := true }
  else
    let k1 : Kmem := { k with next := memset pa 1 k.next }
    let k2 := k1.acquire
    let k3 : Kmem := { k2 with next := Function.update k2.next pa k2.freelist }
    let k4 : Kmem := { k3 with freelist := pa }
    { k := k4.release, panic := false }

/-- The function `kalloc(void)`: the pointer returned (0 when there is no
page) and the allocator state. -/
def kalloc (k : Kmem) : Nat × Kmem :=
  let k1 := k.acquire
  let r := k1.freelist
  let k2 : Kmem := if r ≠ 0 then { k1 with freelist := k1.next r } else k1
  let k3 := k2.release
  let k4 : Kmem := if r ≠ 0 then { k3 with next := memset r 5 k3.next } else k3
  (r, k4)

/-- The pointer `h` heads the free list `l`: following the `next` fields from
`h` visits exactly the pages of `l`, each a non-null page-aligned address, and
ends at the null pointer. -/
def FreeList (next : Nat → Nat) : Nat → List Nat → Prop
  | h, [] => h = 0
  | h, p :: l => h = p ∧ p ≠ 0 ∧ p % PGSIZE = 0 ∧ FreeList next (next p) l

instance (next : Nat → Nat) (h : Nat) (l : List Nat) : Decidable (FreeList next h l) := by
  induction l generalizing h with
  | nil => unfold FreeList; infer_instance
  | cons p l ih => unfold FreeList; exact inferInstance

/-- The address `a` lies inside the page at `pa`, with room for a `next` field. -/
def InPage (pa a : Nat) : Prop := pa ≤ a ∧ a + 8 ≤ pa + PGSIZE

instance (pa a : Nat) : Decidable (InPage pa a) := by unfold InPage; infer_instance

/-- The bytes that `either_copyin` fetches at the offsets `0 .. k-1`. -/
def fetched (copyin : Nat → Option Nat) (k : Nat) : List Nat :=
  (List.range k).map (fun i => (copyin i).getD 0)

/-- No byte at a cursor position in `[w, e)` is a newline or Ctrl-D. -/
def NoPendingTerminator (s : Cons) : Prop :=
  ∀ i, i < sub32 s.e s.w → s.buf (slot (s.w + i)) ≠ 10 ∧ s.buf (slot (s.w + i)) ≠ 4

instance (s : Cons) : Decidable (NoPendingTerminator s) := by
  unfold NoPendingTerminator; infer_instance

/-- Every input handed to `consoleintr` in the run is a byte, as `uartgetc`
delivers them. -/
def ByteInputs : List ConsStep → Prop
  | [] => True
  | ConsStep.intr c :: t => c < 256 ∧ ByteInputs t
  | _ :: t => ByteInputs t

instance (t : List ConsStep) : Decidable (ByteInputs t) := by
  induction t with
  | nil => exact isTrue trivial
  | cons st t ih => cases st <;> (unfold ByteInputs; infer_instance)

/-! ## Concrete inputs -/

/-- A running task that has not been killed. -/
def task_running : Proc := { state := Procstate.RUNNING, chan := none, killed := 0 }

/-- A running task that has been killed. -/
def task_killed : Proc := { state := Procstate.RUNNING, chan := none, killed := 1 }

/-- Every copy to the caller succeeds. -/
def copy_ok : Nat → Bool := fun _ => true

/-- The device accepts a byte at every reading of LSR. -/
def tx_idle : Nat → Bool := fun _ => true

/-- The device accepts no byte. -/
def tx_busy : Nat → Bool := fun _ => false

/-- The console after the input `a`, `b`, newline, `c`, `d`. -/
def line_then_tail : Cons := feed [97, 98, 10, 99, 100] Cons.init

/-- The console after the input `a`, `b`, `c`, Ctrl-D. -/
def data_then_eof : Cons := feed [97, 98, 99, 4] Cons.init

/-- The console after the input Ctrl-D. -/
def eof_only : Cons := feed [4] Cons.init

/-- A run of the console: a line is typed and read, then Ctrl-D is typed and
read. -/
def console_trace : List ConsStep :=
  [ConsStep.intr 97, ConsStep.intr 98, ConsStep.intr 10, ConsStep.read task_running copy_ok 10,
   ConsStep.intr 4, ConsStep.read task_running copy_ok 5]

/-- The transmit side at boot. -/
def tx_boot : TxSys := { cons := Cons.init, tx := Uart.init, sent := [] }

/-- A run of the transmit side: two bytes are queued while the device is busy
(the second is truncated to eight bits), an interrupt drains one byte, and a
third byte is queued with the device idle. -/
def tx_trace : List TxStep :=
  [TxStep.putc task_running 65 tx_busy, TxStep.putc task_running 322 tx_busy,
   TxStep.intr [] (fun i => decide (i < 1)), TxStep.putc task_running 67 tx_idle]

/-- The transmit buffer after 32 bytes have been queued with the device busy:
it is full. -/
def tx_full : Uart :=
  (txRunAll (List.replicate 32 (TxStep.putc task_running 65 tx_busy)) tx_boot).tx

/-- The allocator at boot, before `kinit`: no page is free. -/
def Kmem.init : Kmem := { lock := false, freelist := 0, next := fun _ => 0 }

/-- An address taken for the linker symbol `end`: one megabyte above `KERNBASE`. -/
def example_end : Nat := 0x80100000

/-- The allocator after the three pages 0x80100000, 0x80101000 and 0x80102000
have been freed in that order. -/
def three_free : Kmem :=
  (kfree example_end 0x80102000 (kfree example_end 0x80101000
    (kfree example_end 0x80100000 Kmem.init).k).k).k

/-- Every copy to or from the caller fails. -/
def copy_fails : Nat → Bool := fun _ => false

/-- Every `either_copyin` fails. -/
def copyin_fails : Nat → Option Nat := fun _ => none

/-- An `either_copyin` that succeeds at the offsets 0 and 1 and fails from
offset 2 on. -/
def copyin_two : Nat → Option Nat := fun i => if i < 2 then some (65 + i) else none

/-- An `either_copyin` that always succeeds. -/
def copyin_all : Nat → Option Nat := fun i => some (65 + i)

/-- A copy to the caller that succeeds at offset 0 and fails from offset 1 on. -/
def copy_one : Nat → Bool := fun i => decide (i < 1)

/-- The device accepts one byte, then is busy. -/
def tx_idle_once : Nat → Bool := fun i => decide (i < 1)

/-- The transmit buffer after two bytes have been queued with the device busy. -/
def tx_two : Uart :=
  (txRunAll [TxStep.putc task_running 65 tx_busy, TxStep.putc task_running 66 tx_busy] tx_boot).tx

/-- A run of the console that ends with two uncommitted bytes. -/
def console_trace_tail : List ConsStep :=
  console_trace ++ [ConsStep.intr 99, ConsStep.intr 100]

/-- The console after 127 letters `a` have been typed: one byte short of
full, nothing committed. -/
def almost_full : Cons := feed (List.replicate 127 97) Cons.init

/-! # Theorems -/

/-! ## The interrupt side of the console -/

theorem consoleintr_P (s : Cons) :
    consoleintr 16 s = { s := { s with lock := false }, echo := [], wakeups := [], procdumps := 1 } := by
  simp [consoleintr, C, Cons.acquire, Cons.release]

theorem consoleintr_U (s : Cons) :
    consoleintr 21 s =
      { s := { (killLine (sub32 s.e s.w) { s with lock := true } []).1 with lock := false },
        echo := (killLine (sub32 s.e s.w) { s with lock := true } []).2,
        wakeups := [], procdumps := 0 } := by
  simp [consoleintr, C, Cons.acquire, Cons.release]

theorem consoleintr_H (c : Nat) (s : Cons) (hc : c = 8 ∨ c = 127) :
    consoleintr c s =
      if s.e ≠ s.w then
        { s := { s with lock := false, e := sub32 s.e 1 }, echo := [BACKSPACE], wakeups := [],
          procdumps := 0 }
      else { s := { s with lock := false }, echo := [], wakeups := [], procdumps := 0 } := by
  rcases hc with rfl | rfl <;> simp [consoleintr, C, Cons.acquire, Cons.release]

theorem consoleintr_default (c : Nat) (s : Cons) (h1 : c ≠ 16) (h2 : c ≠ 21) (h3 : c ≠ 8)
    (h4 : c ≠ 127) :
    consoleintr c s =
      if c ≠ 0 ∧ sub32 s.e s.r < 128 then
        if (if c = 13 then 10 else c) = 10 ∨ (if c = 13 then 10 else c) = 4 ∨
            sub32 (add32 s.e 1) s.r = 128 then
          { s := { lock := false,
                   buf := Function.update s.buf (slot s.e) ((if c = 13 then 10 else c) % 256),
                   r := s.r, w := add32 s.e 1, e := add32 s.e 1 },
            echo := [if c = 13 then 10 else c], wakeups := [Chan.cons_r], procdumps := 0 }
        else
          { s := { lock := false,
                   buf := Function.update s.buf (slot s.e) ((if c = 13 then 10 else c) % 256),
                   r := s.r, w := s.w, e := add32 s.e 1 },
            echo := [if c = 13 then 10 else c], wakeups := [], procdumps := 0 }
      else { s := { s with lock := false }, echo := [], wakeups := [], procdumps := 0 } := by
  simp [consoleintr, C, Cons.acquire, Cons.release, INPUT_BUF_SIZE, h1, h2, h3, h4]

theorem killLine_spec (fuel : Nat) (s : Cons) (out : List Nat) (hwf : s.WF)
    (hf : sub32 s.e s.w ≤ fuel) :
    ∃ j, j ≤ sub32 s.e s.w ∧
      (killLine fuel s out).1 = { s with e := sub32 s.e j } ∧
      (killLine fuel s out).2 = out ++ List.replicate j BACKSPACE ∧
      (∀ i, i < j → s.buf (slot (sub32 s.e (i + 1))) ≠ 10) ∧
      (sub32 s.e j = s.w ∨ s.buf (slot (sub32 (sub32 s.e j) 1)) = 10) := by
  induction fuel generalizing s out with
  | zero =>
    obtain ⟨h1, h2, h3⟩ := hwf
    have he : s.e = s.w := by simp only [sub32] at hf; omega
    have h0 : sub32 s.e 0 = s.e := by simp only [sub32]; omega
    refine ⟨0, Nat.zero_le _, ?_, ?_, ?_, ?_⟩
    · rw [h0]; rfl
    · simp [killLine]
    · intro i hi; omega
    · left; rw [h0]; exact he
  | succ f ih =>
    obtain ⟨h1, h2, h3⟩ := hwf
    have h0 : sub32 s.e 0 = s.e := by simp only [sub32]; omega
    unfold killLine
    by_cases h : s.e ≠ s.w ∧ s.buf (slot (sub32 s.e 1)) ≠ 10
    · rw [if_pos h]
      have hlt1 : sub32 s.e 1 < 4294967296 := by simp only [sub32]; omega
      have hdec : sub32 (sub32 s.e 1) s.w + 1 = sub32 s.e s.w := by
        simp only [sub32]; omega
      obtain ⟨j, hj, hs, ho, hb, hstop⟩ := ih { s with e := sub32 s.e 1 }
        (out ++ [BACKSPACE]) ⟨h1, h2, hlt1⟩ (by simp only; omega)
      simp only at hj hs ho hb hstop
      have hcomp : ∀ i, i ≤ j → sub32 (sub32 s.e 1) i = sub32 s.e (i + 1) := by
        intro i hi
        simp only [sub32] at hj hdec ⊢; omega
      refine ⟨j + 1, by omega, ?_, ?_, ?_, ?_⟩
      · rw [hs, hcomp j (Nat.le_refl j)]
      · rw [ho, List.replicate_succ, List.append_assoc]; rfl
      · intro i hi
        cases i with
        | zero => exact h.2
        | succ i =>
          have := hb i (by omega)
          rw [hcomp (i + 1) (by omega)] at this
          exact this
      · rw [← hcomp j (Nat.le_refl j)]; exact hstop
    · rw [if_neg h]
      refine ⟨0, Nat.zero_le _, ?_, ?_, ?_, ?_⟩
      · rw [h0]
      · simp
      · intro i hi; omega
      · rw [h0]
        by_cases he : s.e = s.w
        · left; exact he
        · right
          by_contra hne
          exact h ⟨he, hne⟩

theorem killLine_frame (fuel : Nat) (s : Cons) (out : List Nat) :
    (killLine fuel s out).1.r = s.r ∧ (killLine fuel s out).1.w = s.w ∧
      (killLine fuel s out).1.buf = s.buf ∧ (killLine fuel s out).1.lock = s.lock := by
  induction fuel generalizing s out with
  | zero => simp [killLine]
  | succ f ih =>
    unfold killLine
    split_ifs
    · have := ih { s with e := sub32 s.e 1 } (out ++ [BACKSPACE])
      simpa using this
    · simp

theorem killLine_cursors (fuel : Nat) (s : Cons) (out : List Nat)
    (hw : s.w ≤ s.e) (he : s.e < 4294967296) :
    (killLine fuel s out).1.r = s.r ∧ (killLine fuel s out).1.w = s.w ∧
      s.w ≤ (killLine fuel s out).1.e ∧ (killLine fuel s out).1.e ≤ s.e := by
  induction fuel generalizing s out with
  | zero => simp [killLine, hw]
  | succ f ih =>
    unfold killLine
    by_cases h : s.e ≠ s.w ∧ s.buf (slot (sub32 s.e 1)) ≠ 10
    · rw [if_pos h]
      have h1 : s.w < s.e := by omega
      have := ih { s with e := sub32 s.e 1 } (out ++ [BACKSPACE])
        (by simp only [sub32]; omega) (by simp only [sub32]; omega)
      simp only [sub32] at this ⊢
      omega
    · rw [if_neg h]; simp [hw]

theorem consoleintr_cursors (c : Nat) (s : Cons) (k : Nat) (h : CursorsOk s k)
    (hk : k + 1 < 4294967296) : CursorsOk (consoleintr c s).s (k + 1) := by
  obtain ⟨h1, h2, h3, h4⟩ := h
  by_cases c1 : c = 16
  · subst c1; rw [consoleintr_P]; simp only [CursorsOk]; omega
  by_cases c2 : c = 21
  · subst c2; rw [consoleintr_U]
    have := killLine_cursors (sub32 s.e s.w) { s with lock := true } [] h2 (by simp; omega)
    simp only [CursorsOk]
    simp only at this
    omega
  by_cases c3 : c = 8 ∨ c = 127
  · rw [consoleintr_H c s c3]
    split_ifs <;> simp only [CursorsOk, sub32] <;> omega
  · rw [consoleintr_default c s c1 c2 (by omega) (by omega)]
    by_cases hs : c ≠ 0 ∧ sub32 s.e s.r < 128
    · rw [if_pos hs]
      simp only [sub32] at hs
      by_cases hl : (if c = 13 then 10 else c) = 10 ∨ (if c = 13 then 10 else c) = 4 ∨
            sub32 (add32 s.e 1) s.r = 128
      · rw [if_pos hl]; simp only [CursorsOk, add32]; omega
      · rw [if_neg hl]; simp only [CursorsOk, add32]; omega
    · rw [if_neg hs]; simp only [CursorsOk]; omega

theorem consoleread_loop_cursors (p : Proc) (copyout : Nat → Bool) (target n : Nat) (s : Cons)
    (dst : List Nat) (k : Nat) (h : CursorsOk s k) (hk : k < 4294967296) :
    CursorsOk (consoleread_loop p copyout target n s dst).s k := by
  induction n generalizing s dst with
  | zero => exact h
  | succ m ih =>
    obtain ⟨h1, h2, h3, h4⟩ := h
    unfold consoleread_loop
    simp only [Cons.release]
    split
    · split <;> exact ⟨h1, h2, h3, h4⟩
    · rename_i hne
      split
      · split
        · simp only [CursorsOk, sub32, add32]; omega
        · simp only [CursorsOk, sub32, add32]; omega
      split
      · simp only [CursorsOk, sub32, add32]; omega
      split
      · simp only [CursorsOk, sub32, add32]; omega
      · apply ih
        simp only [CursorsOk, sub32, add32]; omega

theorem consoleintr_cursors_step (c : Nat) (s : Cons) (k : Nat) (h : CursorsOk s k)
    (hk : k + 1 < 4294967296) : CursorsOk ((ConsStep.intr c).apply s) (k + 1) :=
  consoleintr_cursors c s k h hk

theorem consoleread_cursors_step (p : Proc) (copyout : Nat → Bool) (target n : Nat)
    (dst : List Nat) (s : Cons) (k : Nat) (h : CursorsOk s k) (hk : k < 4294967296) :
    CursorsOk (consoleread_wakeup p copyout target n dst s).s k :=
  consoleread_loop_cursors p copyout target n s.acquire dst k h hk

theorem consRun_cursors (t : List ConsStep) (s : Cons) (k : Nat) (h : CursorsOk s k)
    (hk : k + inputs t < 4294967296) : CursorsOk (consRun t s) (k + inputs t) := by
  induction t generalizing s k with
  | nil => exact h
  | cons st t ih =>
    cases st with
    | intr c =>
      simp only [inputs] at hk ⊢
      have h1 := consoleintr_cursors_step c s k h (by omega)
      have h2 := ih ((ConsStep.intr c).apply s) (k + 1) h1 (by omega)
      have e : k + (inputs t + 1) = k + 1 + inputs t := by omega
      rw [e]
      exact h2
    | read p copyout n =>
      simp only [inputs] at hk ⊢
      exact ih _ k (consoleread_cursors_step p copyout n n [] s k h (by omega)) hk
    | wake p copyout target n dst =>
      simp only [inputs] at hk ⊢
      exact ih _ k (consoleread_cursors_step p copyout target n dst s k h (by omega)) hk

/-- C1: receive-buffer invariant. In every state reached from the boot state
`r = w = e = 0` by a sequence of `consoleintr` steps (any input) and
`consoleread` steps (any request, any copy outcome, any killed flag, entered
afresh or resumed after a sleep), with fewer than `2^32` input bytes so far so
that no cursor has wrapped, `r ≤ w ≤ e`, `e - r ≤ 128` and `w - r ≤ 128`. -/
theorem cons_cursor_invariant (t : List ConsStep) (h : inputs t < 4294967296) :
    (consRun t Cons.init).r ≤ (consRun t Cons.init).w ∧
    (consRun t Cons.init).w ≤ (consRun t Cons.init).e ∧
    (consRun t Cons.init).e - (consRun t Cons.init).r ≤ INPUT_BUF_SIZE ∧
    (consRun t Cons.init).w - (consRun t Cons.init).r ≤ INPUT_BUF_SIZE := by
  have h0 : CursorsOk Cons.init 0 := by simp [CursorsOk, Cons.init]
  have := consRun_cursors t Cons.init 0 h0 (by omega)
  obtain ⟨h1, h2, h3, h4⟩ := this
  simp only [INPUT_BUF_SIZE]
  omega

/-- The invariant of C1 at a concrete run: a line is typed and read, then
Ctrl-D is typed and read. -/
theorem cons_cursor_invariant_witness :
    inputs console_trace < 4294967296 ∧
    (consRun console_trace Cons.init).r ≤ (consRun console_trace Cons.init).w ∧
    (consRun console_trace Cons.init).w ≤ (consRun console_trace Cons.init).e ∧
    (consRun console_trace Cons.init).e - (consRun console_trace Cons.init).r ≤ INPUT_BUF_SIZE ∧
    (consRun console_trace Cons.init).w - (consRun console_trace Cons.init).r ≤ INPUT_BUF_SIZE :=
  ⟨by decide, cons_cursor_invariant console_trace (by decide)⟩


/-- C2: line completion happens exactly on a line-completing byte. For every
console state and input byte `c`: when `c` is stored by the default branch
the stored byte is `c` with carriage return turned into newline and `e`
advances by one; when moreover that byte is newline or Ctrl-D, or `e - r` is
128 after storing, `consoleintr` sets `w` to the new `e` and issues one wakeup
on the channel of the read cursor; in every other case `w` is unchanged and
no wakeup is issued. -/
theorem consoleintr_line_completion (c : Nat) (s : Cons) (hc : c < 256) :
    (Stored c s → (consoleintr c s).s.buf (slot s.e) = normalized c ∧
        (consoleintr c s).s.e = add32 s.e 1) ∧
    (LineCompleting c s → (consoleintr c s).s.w = (consoleintr c s).s.e ∧
        (consoleintr c s).wakeups = [Chan.cons_r]) ∧
    (¬ LineCompleting c s → (consoleintr c s).s.w = s.w ∧ (consoleintr c s).wakeups = []) := by
  by_cases c1 : c = 16
  · subst c1; rw [consoleintr_P]; simp [Stored, LineCompleting]
  by_cases c2 : c = 21
  · subst c2; rw [consoleintr_U]
    have := killLine_frame (sub32 s.e s.w) { s with lock := true } []
    simp [Stored, LineCompleting, this.2.1]
  by_cases c3 : c = 8 ∨ c = 127
  · rw [consoleintr_H c s c3]
    have hns : ¬ Stored c s := by unfold Stored; omega
    have hnl : ¬ LineCompleting c s := fun h => hns h.1
    refine ⟨fun h => absurd h hns, fun h => absurd h hnl, fun _ => ?_⟩
    split_ifs <;> simp
  · rw [consoleintr_default c s c1 c2 (by omega) (by omega)]
    have hn : normalized c % 256 = normalized c := by
      unfold normalized; split_ifs <;> omega
    by_cases hs : c ≠ 0 ∧ sub32 s.e s.r < 128
    · have hst : Stored c s := ⟨c1, c2, by omega, by omega, hs.1, hs.2⟩
      rw [if_pos hs]
      by_cases hl : normalized c = 10 ∨ normalized c = 4 ∨ sub32 (add32 s.e 1) s.r = 128
      · have hlc : LineCompleting c s := ⟨hst, hl⟩
        simp only [normalized] at hl hn
        rw [if_pos hl]
        simp [hlc, normalized, hn]
      · have hlc : ¬ LineCompleting c s := fun h => hl h.2
        simp only [normalized] at hl hn
        rw [if_neg hl]
        simp [hlc, normalized, hn]
    · have hns : ¬ Stored c s := fun h => hs ⟨h.2.2.2.2.1, h.2.2.2.2.2⟩
      have hnl : ¬ LineCompleting c s := fun h => hns h.1
      rw [if_neg hs]
      simp [hns, hnl]

/-- The statement of C2 at the input newline on the console at boot. -/
theorem consoleintr_line_completion_witness :
    (10 : Nat) < 256 ∧
    (Stored 10 Cons.init → (consoleintr 10 Cons.init).s.buf (slot Cons.init.e) = normalized 10 ∧
        (consoleintr 10 Cons.init).s.e = add32 Cons.init.e 1) ∧
    (LineCompleting 10 Cons.init →
        (consoleintr 10 Cons.init).s.w = (consoleintr 10 Cons.init).s.e ∧
        (consoleintr 10 Cons.init).wakeups = [Chan.cons_r]) ∧
    (¬ LineCompleting 10 Cons.init → (consoleintr 10 Cons.init).s.w = Cons.init.w ∧
        (consoleintr 10 Cons.init).wakeups = []) :=
  ⟨by decide, consoleintr_line_completion 10 Cons.init (by decide)⟩

/-- C5: kill-line erases exactly the uncommitted tail. For every console
state, `consoleintr(Ctrl-U)` removes some number `j` of bytes, at most
`e - w`: `e` is decremented `j` times, one BACKSPACE is handed to `consputc`
per removed byte, none of the removed bytes is a newline, and on return either
`e = w` or the byte just before `e` is a newline; `r`, `w` and every buffer
byte are unchanged and no wakeup is issued. -/
theorem consoleintr_kill_line (s : Cons) (hwf : s.WF) :
    ∃ j, j ≤ sub32 s.e s.w ∧
      (consoleintr 21 s).s.e = sub32 s.e j ∧
      (consoleintr 21 s).echo = List.replicate j BACKSPACE ∧
      (∀ i, i < j → s.buf (slot (sub32 s.e (i + 1))) ≠ 10) ∧
      ((consoleintr 21 s).s.e = s.w ∨ s.buf (slot (sub32 (consoleintr 21 s).s.e 1)) = 10) ∧
      (consoleintr 21 s).s.r = s.r ∧ (consoleintr 21 s).s.w = s.w ∧
      (consoleintr 21 s).s.buf = s.buf ∧ (consoleintr 21 s).wakeups = [] := by
  rw [consoleintr_U]
  obtain ⟨j, hj, hs, ho, hb, hstop⟩ :=
    killLine_spec (sub32 s.e s.w) { s with lock := true } [] hwf (Nat.le_refl _)
  refine ⟨j, hj, ?_⟩
  simp only at hs ho hb hstop
  rw [hs, ho]
  exact ⟨rfl, by simp, hb, hstop, rfl, rfl, rfl, rfl⟩


/-- The statement of C5 after the input `a`, `b`, newline, `c`, `d`: the state
has `w = 3` and `e = 5`, and kill-line leaves `e = 3` with two erases and the
committed bytes intact. -/
theorem consoleintr_kill_line_witness :
    line_then_tail.WF ∧ line_then_tail.w = 3 ∧ line_then_tail.e = 5 ∧
    (consoleintr 21 line_then_tail).s.e = 3 ∧
    (consoleintr 21 line_then_tail).echo = [BACKSPACE, BACKSPACE] ∧
    (consoleintr 21 line_then_tail).s.region 3 = [97, 98, 10] ∧
    ∃ j, j ≤ sub32 line_then_tail.e line_then_tail.w ∧
      (consoleintr 21 line_then_tail).s.e = sub32 line_then_tail.e j ∧
      (consoleintr 21 line_then_tail).echo = List.replicate j BACKSPACE ∧
      (∀ i, i < j → line_then_tail.buf (slot (sub32 line_then_tail.e (i + 1))) ≠ 10) ∧
      ((consoleintr 21 line_then_tail).s.e = line_then_tail.w ∨
        line_then_tail.buf (slot (sub32 (consoleintr 21 line_then_tail).s.e 1)) = 10) ∧
      (consoleintr 21 line_then_tail).s.r = line_then_tail.r ∧
      (consoleintr 21 line_then_tail).s.w = line_then_tail.w ∧
      (consoleintr 21 line_then_tail).s.buf = line_then_tail.buf ∧
      (consoleintr 21 line_then_tail).wakeups = [] :=
  ⟨by decide, by decide, by decide, by decide, by decide, by decide,
    consoleintr_kill_line line_then_tail (by decide)⟩

theorem consoleintr_cursors_mod (c : Nat) (s : Cons) (h : CursorsMod s) :
    CursorsMod (consoleintr c s).s := by
  obtain ⟨⟨h1, h2, h3⟩, h4, h5⟩ := h
  by_cases c1 : c = 16
  · subst c1; rw [consoleintr_P]; exact ⟨⟨h1, h2, h3⟩, h4, h5⟩
  by_cases c2 : c = 21
  · subst c2; rw [consoleintr_U]
    obtain ⟨j, hj, hs, _, _, _⟩ :=
      killLine_spec (sub32 s.e s.w) { s with lock := true } [] ⟨h1, h2, h3⟩ (Nat.le_refl _)
    simp only at hj hs
    rw [hs]
    simp only [CursorsMod, Cons.WF, sub32] at hj h4 h5 ⊢
    omega
  by_cases c3 : c = 8 ∨ c = 127
  · rw [consoleintr_H c s c3]
    split_ifs <;> simp only [CursorsMod, Cons.WF, sub32] at h4 h5 ⊢ <;> omega
  · rw [consoleintr_default c s c1 c2 (by omega) (by omega)]
    by_cases hs : c ≠ 0 ∧ sub32 s.e s.r < 128
    · rw [if_pos hs]
      simp only [sub32] at hs
      by_cases hl : (if c = 13 then 10 else c) = 10 ∨ (if c = 13 then 10 else c) = 4 ∨
            sub32 (add32 s.e 1) s.r = 128
      · rw [if_pos hl]; simp only [CursorsMod, Cons.WF, sub32, add32] at h4 h5 ⊢; omega
      · rw [if_neg hl]; simp only [CursorsMod, Cons.WF, sub32, add32] at h4 h5 ⊢; omega
    · rw [if_neg hs]; exact ⟨⟨h1, h2, h3⟩, h4, h5⟩

theorem consoleread_loop_cursors_mod (p : Proc) (copyout : Nat → Bool) (target n : Nat)
    (s : Cons) (dst : List Nat) (h : CursorsMod s) :
    CursorsMod (consoleread_loop p copyout target n s dst).s := by
  induction n generalizing s dst with
  | zero => exact h
  | succ m ih =>
    obtain ⟨⟨h1, h2, h3⟩, h4, h5⟩ := h
    rw [consoleread_loop]
    by_cases e1 : s.r = s.w
    · rw [if_pos e1]
      split_ifs <;> exact ⟨⟨h1, h2, h3⟩, h4, h5⟩
    · rw [if_neg e1]
      have hstep : CursorsMod { s with r := add32 s.r 1 } := by
        simp only [CursorsMod, Cons.WF, sub32, add32] at h4 h5 ⊢; omega
      have hback : sub32 (add32 s.r 1) 1 = s.r := by simp only [sub32, add32]; omega
      simp only [hback]
      split_ifs
      · exact ⟨⟨h1, h2, h3⟩, h4, h5⟩
      · exact hstep
      · exact hstep
      · exact hstep
      · exact ih _ _ hstep

theorem consRun_cursors_mod (t : List ConsStep) (s : Cons) (h : CursorsMod s) :
    CursorsMod (consRun t s) := by
  induction t generalizing s with
  | nil => exact h
  | cons st t ih =>
    apply ih
    cases st with
    | intr c => exact consoleintr_cursors_mod c s h
    | read p copyout n => exact consoleread_loop_cursors_mod p copyout n n s.acquire [] h
    | wake p copyout target n dst =>
      exact consoleread_loop_cursors_mod p copyout target n s.acquire dst h
/-! ## The reading side of the console -/

theorem slot_add32 (a b i : Nat) : slot (add32 a b + i) = slot (a + b + i) := by
  simp only [slot, add32, Fin.mk.injEq]; omega

theorem slot_add32_zero (a b : Nat) : slot (add32 a b) = slot (a + b) := by
  simp only [slot, add32, Fin.mk.injEq]; omega

theorem region_succ (s : Cons) (j : Nat) :
    s.region (j + 1) = s.buf (slot s.r) :: ({ s with r := add32 s.r 1 } : Cons).region j := by
  simp only [Cons.region, List.range_succ_eq_map, List.map_cons, List.map_map, Nat.add_zero]
  congr 1
  apply List.map_congr_left
  intro i _
  simp only [Function.comp, slot_add32]
  congr 2
  omega

/-- While the cursor meets bytes that are neither newline nor Ctrl-D, inside the
committed region, with copies succeeding and bytes still wanted, the loop of
`consoleread` delivers them one by one. -/
theorem consoleread_loop_ordinary (p : Proc) (copyout : Nat → Bool) (target : Nat) (j : Nat) :
    ∀ (n : Nat) (s : Cons) (dst : List Nat), s.WF → j ≤ sub32 s.w s.r →
      (∀ i, i < j → s.buf (slot (s.r + i)) ≠ 10 ∧ s.buf (slot (s.r + i)) ≠ 4) →
      (∀ i, i < j → copyout (dst.length + i) = true) →
      consoleread_loop p copyout target (n + j) s dst =
        consoleread_loop p copyout target n { s with r := add32 s.r j } (dst ++ s.region j) := by
  induction j with
  | zero =>
    intro n s dst hwf _ _ _
    have : add32 s.r 0 = s.r := by simp only [add32]; have := hwf.1; omega
    simp [Cons.region, this]
  | succ j ih =>
    intro n s dst hwf hj hb hc
    obtain ⟨h1, h2, h3⟩ := hwf
    have hne : s.r ≠ s.w := by
      intro h; rw [h] at hj; simp only [sub32] at hj; omega
    have hb0 := hb 0 (by omega)
    have hc0 := hc 0 (by omega)
    simp only [Nat.add_zero] at hb0 hc0
    have e1 : n + (j + 1) = (n + j) + 1 := by omega
    rw [e1, consoleread_loop]
    simp only [if_neg hne, C, hb0.2, hc0, hb0.1]
    simp only [Nat.reduceSub, if_false, Bool.true_eq_false]
    rw [ih n { s with r := add32 s.r 1 } (dst ++ [s.buf (slot s.r)])
      ⟨by simp only [add32]; omega, h2, h3⟩
      (by simp only [sub32, add32] at hj ⊢; omega)
      (by
        intro i hi
        have := hb (i + 1) (by omega)
        simp only [slot_add32]
        rw [show s.r + 1 + i = s.r + (i + 1) by omega]
        exact this)
      (by
        intro i hi
        have := hc (i + 1) (by omega)
        simp only [List.length_append, List.length_singleton]
        rw [show dst.length + 1 + i = dst.length + (i + 1) by omega]
        exact this)]
    rw [region_succ, List.append_assoc]
    simp only [List.singleton_append]
    congr 2
    simp only [add32]; omega

theorem region_length (s : Cons) (j : Nat) : (s.region j).length = j := by
  simp [Cons.region]

theorem region_snoc (s : Cons) (j : Nat) :
    s.region (j + 1) = s.region j ++ [s.buf (slot (s.r + j))] := by
  simp [Cons.region, List.range_succ]

theorem consoleread_loop_zero (p : Proc) (copyout : Nat → Bool) (target : Nat) (s : Cons)
    (dst : List Nat) :
    consoleread_loop p copyout target 0 s dst =
      { s := { s with lock := false }, dst := dst, outcome := ReadOutcome.ret (target : Nat) } := by
  simp [consoleread_loop, Cons.release]

theorem consoleread_loop_newline (p : Proc) (copyout : Nat → Bool) (target n : Nat) (s : Cons)
    (dst : List Nat) (hne : s.r ≠ s.w) (hb : s.buf (slot s.r) = 10)
    (hc : copyout dst.length = true) :
    consoleread_loop p copyout target (n + 1) s dst =
      { s := { s with lock := false, r := add32 s.r 1 }, dst := dst ++ [10],
        outcome := ReadOutcome.ret (target - n : Nat) } := by
  rw [consoleread_loop]
  simp [if_neg hne, hb, C, hc, Cons.release]

theorem consoleread_loop_eof (p : Proc) (copyout : Nat → Bool) (target n : Nat) (s : Cons)
    (dst : List Nat) (hr : s.r < 4294967296) (hne : s.r ≠ s.w) (hb : s.buf (slot s.r) = 4) :
    consoleread_loop p copyout target (n + 1) s dst =
      { s := { s with lock := false, r := if n + 1 < target then s.r else add32 s.r 1 },
        dst := dst, outcome := ReadOutcome.ret (target - (n + 1) : Nat) } := by
  have hback : sub32 (add32 s.r 1) 1 = s.r := by simp only [sub32, add32]; omega
  rw [consoleread_loop]
  simp only [if_neg hne, hb, C, Nat.reduceSub, if_true, Cons.release, hback]
  split_ifs <;> rfl

/-- C6: one line per read, in cursor order, newline included. For every state
whose committed region holds at least `k ≥ 1` bytes from `r` on, the first
newline among them at offset `k - 1` and no Ctrl-D before it, and every
request `n`, a `consoleread` whose copies succeed returns `min n k`, delivers
exactly the bytes at the cursor positions `r, ..., r + min n k - 1` (each
addressed modulo 128) in that order, advances `r` by `min n k`, leaves `w`,
`e` and the buffer unchanged and releases the lock; when `n ≥ k` the last
byte delivered is the newline. -/
theorem consoleread_one_line (p : Proc) (copyout : Nat → Bool) (n k : Nat) (s : Cons)
    (hwf : s.WF) (hk : 1 ≤ k) (hreg : k ≤ sub32 s.w s.r)
    (hord : ∀ i, i < k - 1 → s.buf (slot (s.r + i)) ≠ 10 ∧ s.buf (slot (s.r + i)) ≠ 4)
    (hnl : s.buf (slot (s.r + (k - 1))) = 10)
    (hcopy : ∀ i, i < min n k → copyout i = true) :
    (consoleread p copyout n s).outcome = ReadOutcome.ret (min n k : Nat) ∧
    (consoleread p copyout n s).dst = s.region (min n k) ∧
    (consoleread p copyout n s).s.r = add32 s.r (min n k) ∧
    (consoleread p copyout n s).s.w = s.w ∧
    (consoleread p copyout n s).s.e = s.e ∧
    (consoleread p copyout n s).s.buf = s.buf ∧
    (consoleread p copyout n s).s.lock = false ∧
    (k ≤ n → (consoleread p copyout n s).dst.getLast? = some 10) := by
  obtain ⟨h1, h2, h3⟩ := hwf
  unfold consoleread
  by_cases hlt : n < k
  · have hmin : min n k = n := by omega
    rw [hmin] at hcopy ⊢
    have step := consoleread_loop_ordinary p copyout n n 0 s.acquire [] ⟨h1, h2, h3⟩
      (by show n ≤ sub32 s.w s.r; omega)
      (fun i hi => hord i (by omega))
      (fun i hi => by simpa using hcopy i hi)
    rw [Nat.zero_add] at step
    rw [step, consoleread_loop_zero]
    refine ⟨rfl, by simp [Cons.region, Cons.acquire], rfl, rfl, rfl, rfl, rfl, fun h => by omega⟩
  · have hmin : min n k = k := by omega
    rw [hmin] at hcopy ⊢
    have hsplit : n = (n - k + 1) + (k - 1) := by omega
    have step := consoleread_loop_ordinary p copyout n (k - 1) (n - k + 1) s.acquire []
      ⟨h1, h2, h3⟩ (by show k - 1 ≤ sub32 s.w s.r; omega)
      (fun i hi => hord i hi)
      (fun i hi => by simpa using hcopy i (by omega))
    rw [← hsplit] at step
    rw [step]
    have hreg2 : s.acquire.region (k - 1) = s.region (k - 1) := rfl
    rw [consoleread_loop_newline p copyout n (n - k) _ _
      (by
        show add32 s.r (k - 1) ≠ s.w
        simp only [sub32, add32] at hreg ⊢; omega)
      (by
        show s.buf (slot (add32 s.r (k - 1))) = 10
        rw [slot_add32_zero]; exact hnl)
      (by
        rw [List.nil_append, region_length]
        exact hcopy (k - 1) (by omega))]
    have hk1 : k - 1 + 1 = k := by omega
    have hdst : [] ++ s.acquire.region (k - 1) ++ [10] = s.region k := by
      rw [List.nil_append, hreg2, ← hnl, ← region_snoc, hk1]
    refine ⟨?_, hdst, ?_, rfl, rfl, rfl, rfl, fun _ => ?_⟩
    · show ReadOutcome.ret ((n - (n - k) : Nat) : Int) = ReadOutcome.ret ((k : Nat) : Int)
      congr 2; omega
    · show add32 (add32 s.r (k - 1)) 1 = add32 s.r k
      simp only [add32]; omega
    · show ([] ++ s.acquire.region (k - 1) ++ [10]).getLast? = some 10
      simp

/-- The statement of C6 after the input `a`, `b`, newline, `c`, `d`: a read of
up to 10 bytes returns the three bytes of the first line. -/
theorem consoleread_one_line_witness :
    line_then_tail.WF ∧ 3 ≤ sub32 line_then_tail.w line_then_tail.r ∧
    line_then_tail.buf (slot (line_then_tail.r + (3 - 1))) = 10 ∧
    line_then_tail.region 3 = [97, 98, 10] ∧
    (consoleread task_running copy_ok 10 line_then_tail).outcome = ReadOutcome.ret (min 10 3 : Nat) ∧
    (consoleread task_running copy_ok 10 line_then_tail).dst = line_then_tail.region (min 10 3) ∧
    (consoleread task_running copy_ok 10 line_then_tail).s.r = add32 line_then_tail.r (min 10 3) ∧
    (consoleread task_running copy_ok 10 line_then_tail).s.w = line_then_tail.w ∧
    (consoleread task_running copy_ok 10 line_then_tail).s.e = line_then_tail.e ∧
    (consoleread task_running copy_ok 10 line_then_tail).s.buf = line_then_tail.buf ∧
    (consoleread task_running copy_ok 10 line_then_tail).s.lock = false ∧
    (3 ≤ 10 → (consoleread task_running copy_ok 10 line_then_tail).dst.getLast? = some 10) :=
  ⟨by decide, by decide, by decide, by decide,
    consoleread_one_line task_running copy_ok 10 3 line_then_tail (by decide) (by decide)
      (by decide) (by decide) (by decide) (fun _ _ => rfl)⟩


theorem consoleread_eof_after_data_first (p : Proc) (copyout : Nat → Bool) (n k : Nat) (s : Cons)
    (hwf : s.WF) (hk : 1 ≤ k) (hkn : k < n) (hreg : k < sub32 s.w s.r)
    (hord : ∀ i, i < k → s.buf (slot (s.r + i)) ≠ 10 ∧ s.buf (slot (s.r + i)) ≠ 4)
    (heof : s.buf (slot (s.r + k)) = 4)
    (hcopy : ∀ i, i < k → copyout i = true) :
    consoleread p copyout n s =
      { s := { s with lock := false, r := add32 s.r k }, dst := s.region k,
        outcome := ReadOutcome.ret (k : Nat) } := by
  obtain ⟨h1, h2, h3⟩ := hwf
  unfold consoleread
  have hsplit : n = (n - k - 1 + 1) + k := by omega
  have step := consoleread_loop_ordinary p copyout n k (n - k - 1 + 1) s.acquire []
    ⟨h1, h2, h3⟩ (by show k ≤ sub32 s.w s.r; omega) hord
    (fun i hi => by simpa using hcopy i hi)
  rw [← hsplit] at step
  rw [step]
  rw [consoleread_loop_eof p copyout n (n - k - 1) _ _
    (by show add32 s.r k < 4294967296; simp only [add32]; omega)
    (by
      show add32 s.r k ≠ s.w
      simp only [sub32, add32] at hreg ⊢; omega)
    (by
      show s.buf (slot (add32 s.r k)) = 4
      rw [slot_add32_zero]; exact heof)]
  have hlt : n - k - 1 + 1 < n := by omega
  have hret : n - (n - k - 1 + 1) = k := by omega
  simp only [if_pos hlt, hret, List.nil_append]
  rfl

/-- C3: end-of-file after partial data is split over two calls. For every
`k` and `n` with `1 ≤ k < n`, if the committed region holds, from `r` on, `k`
bytes that are neither newline nor Ctrl-D followed by Ctrl-D, then a
`consoleread` of up to `n` bytes whose copies succeed delivers exactly those
`k` bytes, returns `k` and leaves `r` at the Ctrl-D; the call that follows,
with any request `m > 0`, delivers nothing, returns 0 and advances `r` by
exactly one. -/
theorem consoleread_eof_after_data (p p2 : Proc) (copyout copyout2 : Nat → Bool) (n k m : Nat)
    (s : Cons) (hwf : s.WF) (hk : 1 ≤ k) (hkn : k < n) (hm : 0 < m)
    (hreg : k < sub32 s.w s.r)
    (hord : ∀ i, i < k → s.buf (slot (s.r + i)) ≠ 10 ∧ s.buf (slot (s.r + i)) ≠ 4)
    (heof : s.buf (slot (s.r + k)) = 4)
    (hcopy : ∀ i, i < k → copyout i = true) :
    (consoleread p copyout n s).outcome = ReadOutcome.ret (k : Nat) ∧
    (consoleread p copyout n s).dst = s.region k ∧
    (consoleread p copyout n s).s.r = add32 s.r k ∧
    (consoleread p copyout n s).s.buf (slot (consoleread p copyout n s).s.r) = 4 ∧
    (consoleread p2 copyout2 m (consoleread p copyout n s).s).outcome = ReadOutcome.ret 0 ∧
    (consoleread p2 copyout2 m (consoleread p copyout n s).s).dst = [] ∧
    (consoleread p2 copyout2 m (consoleread p copyout n s).s).s.r =
      add32 (consoleread p copyout n s).s.r 1 := by
  rw [consoleread_eof_after_data_first p copyout n k s hwf hk hkn hreg hord heof hcopy]
  obtain ⟨h1, h2, h3⟩ := hwf
  have hb : s.buf (slot (add32 s.r k)) = 4 := by rw [slot_add32_zero]; exact heof
  refine ⟨rfl, rfl, rfl, hb, ?_⟩
  have hm1 : m = (m - 1) + 1 := by omega
  unfold consoleread
  rw [hm1, consoleread_loop_eof p2 copyout2 (m - 1 + 1) (m - 1) _ _
    (by show add32 s.r k < 4294967296; simp only [add32]; omega)
    (by
      show add32 s.r k ≠ s.w
      simp only [sub32, add32] at hreg ⊢; omega)
    (by exact hb)]
  have hnlt : ¬ (m - 1 + 1 < m - 1 + 1) := by omega
  rw [if_neg hnlt, Nat.sub_self]
  exact ⟨rfl, rfl, rfl⟩

/-- The statement of C3 at the spec witness: after the input `a`, `b`, `c`,
Ctrl-D, a read of up to 10 bytes returns 3 bytes and the read that follows
returns 0. -/
theorem consoleread_eof_after_data_witness :
    data_then_eof.WF ∧ 3 < sub32 data_then_eof.w data_then_eof.r ∧
    data_then_eof.buf (slot (data_then_eof.r + 3)) = 4 ∧
    data_then_eof.region 3 = [97, 98, 99] ∧
    (consoleread task_running copy_ok 10 data_then_eof).outcome = ReadOutcome.ret (3 : Nat) ∧
    (consoleread task_running copy_ok 10 data_then_eof).dst = data_then_eof.region 3 ∧
    (consoleread task_running copy_ok 10 data_then_eof).s.r = add32 data_then_eof.r 3 ∧
    (consoleread task_running copy_ok 10 data_then_eof).s.buf
      (slot (consoleread task_running copy_ok 10 data_then_eof).s.r) = 4 ∧
    (consoleread task_running copy_ok 10
      (consoleread task_running copy_ok 10 data_then_eof).s).outcome = ReadOutcome.ret 0 ∧
    (consoleread task_running copy_ok 10
      (consoleread task_running copy_ok 10 data_then_eof).s).dst = [] ∧
    (consoleread task_running copy_ok 10
      (consoleread task_running copy_ok 10 data_then_eof).s).s.r =
        add32 (consoleread task_running copy_ok 10 data_then_eof).s.r 1 :=
  ⟨by decide, by decide, by decide, by decide,
    consoleread_eof_after_data task_running task_running copy_ok copy_ok 10 3 10 data_then_eof
      (by decide) (by decide) (by decide) (by decide) (by decide) (by decide) (by decide)
      (fun _ _ => rfl)⟩

/-- C4 (amended): the push-back rule for end-of-file. Whenever the loop of
`consoleread`, with `n > 0` bytes still wanted out of `target`, takes Ctrl-D
from the read cursor: if `n < target`, that is at least one byte has been
produced in this call, Ctrl-D is pushed back (`r` is restored); otherwise,
no byte having been produced, Ctrl-D is consumed (`r` advances by one). In
both cases nothing more is delivered and the call returns `target - n`. -/
theorem consoleread_eof_rule (p : Proc) (copyout : Nat → Bool) (target n : Nat) (s : Cons)
    (dst : List Nat) (hn : 0 < n) (hr : s.r < 4294967296) (hne : s.r ≠ s.w)
    (hb : s.buf (slot s.r) = 4) :
    (n < target → (consoleread_loop p copyout target n s dst).s.r = s.r) ∧
    (¬ n < target → (consoleread_loop p copyout target n s dst).s.r = add32 s.r 1) ∧
    (consoleread_loop p copyout target n s dst).dst = dst ∧
    (consoleread_loop p copyout target n s dst).outcome = ReadOutcome.ret (target - n : Nat) := by
  have hn1 : n = (n - 1) + 1 := by omega
  rw [hn1, consoleread_loop_eof p copyout target (n - 1) s dst hr hne hb]
  refine ⟨fun h => ?_, fun h => ?_, rfl, rfl⟩
  · simp only [if_pos h]
  · simp only [if_neg h]

/-- The amended statement of C4 at a read of one byte from a console that
holds only Ctrl-D: no byte has been produced, and Ctrl-D is consumed. -/
theorem consoleread_eof_rule_witness :
    eof_only.acquire.r ≠ eof_only.acquire.w ∧ eof_only.acquire.buf (slot eof_only.acquire.r) = 4 ∧
    ((1 < 1 → (consoleread_loop task_running copy_ok 1 1 eof_only.acquire []).s.r =
        eof_only.acquire.r) ∧
    (¬ 1 < 1 → (consoleread_loop task_running copy_ok 1 1 eof_only.acquire []).s.r =
        add32 eof_only.acquire.r 1) ∧
    (consoleread_loop task_running copy_ok 1 1 eof_only.acquire []).dst = [] ∧
    (consoleread_loop task_running copy_ok 1 1 eof_only.acquire []).outcome =
      ReadOutcome.ret (1 - 1 : Nat)) :=
  ⟨by decide, by decide,
    consoleread_eof_rule task_running copy_ok 1 1 eof_only.acquire [] (by decide) (by decide)
      (by decide) (by decide)⟩

/-- C4 (as stated) fails: the console holds only Ctrl-D and a read of one byte
is made. The byte taken from the read cursor is Ctrl-D and fewer bytes (none)
than the one requested have been produced, yet Ctrl-D is not pushed back: `r`
has advanced by one and the call returns 0. -/
theorem consoleread_eof_pushback_counterexample :
    eof_only.buf (slot eof_only.r) = 4 ∧ eof_only.r ≠ eof_only.w ∧
    (consoleread task_running copy_ok 1 eof_only).dst.length < 1 ∧
    (consoleread task_running copy_ok 1 eof_only).outcome = ReadOutcome.ret 0 ∧
    (consoleread task_running copy_ok 1 eof_only).s.r = add32 eof_only.r 1 ∧
    (consoleread task_running copy_ok 1 eof_only).s.r ≠ eof_only.r := by
  decide

/-- C9: a killed reader fails instead of waiting. Whenever the wait loop of
`consoleread` (with `n > 0` bytes still wanted, at entry or after a wakeup)
finds `r = w` and the calling task is marked killed, the call returns `-1`
without sleeping, with the lock released, and with `r`, `w`, `e`, the buffer
and the bytes delivered so far as they were. -/
theorem consoleread_killed (p : Proc) (copyout : Nat → Bool) (target n : Nat) (s : Cons)
    (dst : List Nat) (hn : 0 < n) (he : s.r = s.w) (hk : killed p ≠ 0) :
    (consoleread_loop p copyout target n s dst).outcome = ReadOutcome.ret (-1) ∧
    (consoleread_loop p copyout target n s dst).s.lock = false ∧
    (consoleread_loop p copyout target n s dst).s.r = s.r ∧
    (consoleread_loop p copyout target n s dst).s.w = s.w ∧
    (consoleread_loop p copyout target n s dst).s.e = s.e ∧
    (consoleread_loop p copyout target n s dst).s.buf = s.buf ∧
    (consoleread_loop p copyout target n s dst).dst = dst := by
  have hn1 : n = (n - 1) + 1 := by omega
  rw [hn1, consoleread_loop, if_pos he, if_pos hk]
  exact ⟨rfl, rfl, rfl, rfl, rfl, rfl, rfl⟩

/-- The statement of C9 for a killed task reading from the empty console at
boot. -/
theorem consoleread_killed_witness :
    Cons.init.acquire.r = Cons.init.acquire.w ∧ killed task_killed ≠ 0 ∧
    (consoleread_loop task_killed copy_ok 5 5 Cons.init.acquire []).outcome = ReadOutcome.ret (-1) ∧
    (consoleread_loop task_killed copy_ok 5 5 Cons.init.acquire []).s.lock = false ∧
    (consoleread_loop task_killed copy_ok 5 5 Cons.init.acquire []).s.r = Cons.init.acquire.r ∧
    (consoleread_loop task_killed copy_ok 5 5 Cons.init.acquire []).s.w = Cons.init.acquire.w ∧
    (consoleread_loop task_killed copy_ok 5 5 Cons.init.acquire []).s.e = Cons.init.acquire.e ∧
    (consoleread_loop task_killed copy_ok 5 5 Cons.init.acquire []).s.buf = Cons.init.acquire.buf ∧
    (consoleread_loop task_killed copy_ok 5 5 Cons.init.acquire []).dst = [] :=
  ⟨by decide, by decide,
    consoleread_killed task_killed copy_ok 5 5 Cons.init.acquire [] (by decide) (by decide)
      (by decide)⟩

/-! ## The transmit side of the UART -/

theorem txslot_add64 (a b i : Nat) : txslot (add64 a b + i) = txslot (a + b + i) := by
  simp only [txslot, add64, Fin.mk.injEq]; omega

theorem pending_cons (s : Uart) (hwf : s.WF) (hne : s.w ≠ s.r) :
    s.pending = s.buf (txslot s.r) :: ({ s with r := add64 s.r 1 } : Uart).pending := by
  obtain ⟨h1, h2⟩ := hwf
  have hd : sub64 s.w s.r = sub64 s.w (add64 s.r 1) + 1 := by
    simp only [sub64, add64]; omega
  simp only [Uart.pending]
  rw [hd, List.range_succ_eq_map, List.map_cons, List.map_map, Nat.add_zero]
  congr 1
  apply List.map_congr_left
  intro i _
  simp only [Function.comp, txslot_add64]
  congr 2
  omega

theorem uartstart_loop_inv (idle : Nat → Bool) (fuel : Nat) :
    ∀ (i : Nat) (s : Uart) (thr : List Nat) (wk : List Chan), s.WF →
      (uartstart_loop idle fuel i s thr wk).s.WF ∧
      (uartstart_loop idle fuel i s thr wk).s.w = s.w ∧
      (uartstart_loop idle fuel i s thr wk).s.buf = s.buf ∧
      (uartstart_loop idle fuel i s thr wk).s.lock = s.lock ∧
      sub64 s.w (uartstart_loop idle fuel i s thr wk).s.r ≤ sub64 s.w s.r ∧
      (s.r ≤ s.w → s.r ≤ (uartstart_loop idle fuel i s thr wk).s.r ∧
        (uartstart_loop idle fuel i s thr wk).s.r ≤ s.w) ∧
      (uartstart_loop idle fuel i s thr wk).thr ++ (uartstart_loop idle fuel i s thr wk).s.pending
        = thr ++ s.pending := by
  induction fuel with
  | zero =>
    intro i s thr wk hwf
    rw [uartstart_loop]
    exact ⟨hwf, rfl, rfl, rfl, Nat.le_refl _, fun h => ⟨Nat.le_refl _, h⟩, rfl⟩
  | succ f ih =>
    intro i s thr wk hwf
    rw [uartstart_loop]
    by_cases h1 : s.w = s.r
    · rw [if_pos h1]
      exact ⟨hwf, rfl, rfl, rfl, Nat.le_refl _, fun h => ⟨Nat.le_refl _, h⟩, rfl⟩
    · rw [if_neg h1]
      by_cases h2 : idle i = false
      · rw [if_pos h2]
        exact ⟨hwf, rfl, rfl, rfl, Nat.le_refl _, fun h => ⟨Nat.le_refl _, h⟩, rfl⟩
      · rw [if_neg h2]
        obtain ⟨hr, hw⟩ := hwf
        have hwf1 : ({ s with r := add64 s.r 1 } : Uart).WF :=
          ⟨by simp only [add64]; omega, hw⟩
        obtain ⟨a1, a2, a3, a4, a5, a6, a7⟩ := ih (i + 1) { s with r := add64 s.r 1 }
          (thr ++ [s.buf (txslot s.r)]) (wk ++ [Chan.uart_tx_r]) hwf1
        simp only at a2 a3 a4 a5 a6
        generalize uartstart_loop idle f (i + 1) { s with r := add64 s.r 1 }
          (thr ++ [s.buf (txslot s.r)]) (wk ++ [Chan.uart_tx_r]) = res at a1 a2 a3 a4 a5 a6 a7 ⊢
        obtain ⟨b1, b2⟩ := a1
        refine ⟨⟨b1, b2⟩, a2, a3, a4, ?_, ?_, ?_⟩
        · simp only [sub64, add64] at a5 ⊢; omega
        · intro hle
          simp only [add64] at a6
          have := a6 (by omega)
          omega
        · rw [a7, pending_cons s ⟨hr, hw⟩ h1, List.append_assoc]
          rfl

theorem pending_store (s : Uart) (v : Nat) (hwf : s.WF) (hd : sub64 s.w s.r < 32) :
    ({ s with buf := Function.update s.buf (txslot s.w) v, w := add64 s.w 1 } : Uart).pending
      = s.pending ++ [v] := by
  obtain ⟨h1, h2⟩ := hwf
  have hd1 : sub64 (add64 s.w 1) s.r = sub64 s.w s.r + 1 := by
    simp only [sub64, add64] at hd ⊢; omega
  simp only [Uart.pending]
  rw [hd1, List.range_succ, List.map_append, List.map_singleton]
  congr 1
  · apply List.map_congr_left
    intro i hi
    rw [List.mem_range] at hi
    rw [Function.update_noteq]
    simp only [txslot, ne_eq, Fin.mk.injEq]
    simp only [sub64] at hd hi
    omega
  · have : txslot (s.r + sub64 s.w s.r) = txslot s.w := by
      simp only [txslot, sub64, Fin.mk.injEq]; omega
    rw [this, Function.update_same]

theorem Uart.acquire_pending (s : Uart) : s.acquire.pending = s.pending := rfl
theorem Uart.release_pending (s : Uart) : s.release.pending = s.pending := rfl
theorem TxInv_acquire (s : Uart) (h : TxInv s) : TxInv s.acquire := h
theorem TxInv_release (s : Uart) (h : TxInv s) : TxInv s.release := h

theorem uartstart_inv (idle : Nat → Bool) (s : Uart) (h : s.WF) :
    (uartstart idle s).s.WF ∧ (uartstart idle s).s.w = s.w ∧ (uartstart idle s).s.buf = s.buf ∧
      (uartstart idle s).s.lock = s.lock ∧
      sub64 s.w (uartstart idle s).s.r ≤ sub64 s.w s.r ∧
      (s.r ≤ s.w → s.r ≤ (uartstart idle s).s.r ∧ (uartstart idle s).s.r ≤ s.w) ∧
      (uartstart idle s).thr ++ (uartstart idle s).s.pending = s.pending := by
  have := uartstart_loop_inv idle (sub64 s.w s.r) 0 s [] [] h
  simpa [uartstart] using this

theorem uartstart_step_inv (idle : Nat → Bool) (s : Uart) (hinv : TxInv s) :
    TxInv (uartstart idle s).s ∧
      (uartstart idle s).thr ++ (uartstart idle s).s.pending = s.pending := by
  obtain ⟨hwf, h3⟩ := hinv
  obtain ⟨a1, a2, a3, a4, a5, a6, a7⟩ := uartstart_inv idle s hwf
  refine ⟨⟨a1, ?_⟩, a7⟩
  rw [a2]; omega

theorem store_inv (s : Uart) (c : Nat) (hinv : TxInv s) (h : s.w ≠ add64 s.r 32) :
    TxInv (s.store c) ∧ (s.store c).pending = s.pending ++ [c % 256] := by
  obtain ⟨⟨h1, h2⟩, h3⟩ := hinv
  have hlt : sub64 s.w s.r < 32 := by
    simp only [sub64, add64] at h h3 ⊢; omega
  refine ⟨⟨⟨h1, ?_⟩, ?_⟩, pending_store s (c % 256) ⟨h1, h2⟩ hlt⟩
  · show add64 s.w 1 < 18446744073709551616
    simp only [add64]; omega
  · show sub64 (add64 s.w 1) s.r ≤ 32
    simp only [sub64, add64] at hlt ⊢; omega

theorem uartputc_loop_full (p : Proc) (c : Nat) (idle : Nat → Bool) (s : Uart)
    (h : s.w = add64 s.r 32) :
    uartputc_loop p c idle s =
      { s := s.release, outcome := PutOutcome.sleeping (sleep Chan.uart_tx_r p) } := by
  simp [uartputc_loop, UART_TX_BUF_SIZE, h]

theorem uartputc_loop_room (p : Proc) (c : Nat) (idle : Nat → Bool) (s : Uart)
    (h : s.w ≠ add64 s.r 32) :
    uartputc_loop p c idle s =
      { s := (uartstart idle (s.store c)).s.release,
        outcome := PutOutcome.done (uartstart idle (s.store c)).thr
          (uartstart idle (s.store c)).wakeups } := by
  simp [uartputc_loop, UART_TX_BUF_SIZE, h]

theorem uartputc_loop_room_inv (p : Proc) (c : Nat) (idle : Nat → Bool) (s : Uart)
    (hinv : TxInv s) (h : s.w ≠ add64 s.r 32) :
    TxInv (uartputc_loop p c idle s).s ∧
      (uartputc_loop p c idle s).outcome.thr ++ (uartputc_loop p c idle s).s.pending
        = s.pending ++ [c % 256] := by
  rw [uartputc_loop_room p c idle s h]
  obtain ⟨b1, b2⟩ := store_inv s c hinv h
  obtain ⟨a1, a2⟩ := uartstart_step_inv idle (s.store c) b1
  refine ⟨TxInv_release _ a1, ?_⟩
  show (uartstart idle (s.store c)).thr ++ (uartstart idle (s.store c)).s.release.pending = _
  rw [Uart.release_pending, a2, b2]

theorem uartputc_entry (p : Proc) (c : Nat) (idle : Nat → Bool) (s : Uart) :
    uartputc 0 p c idle s = uartputc_loop p c idle s.acquire := by
  simp [uartputc]

theorem uartintr_tx (rx : List Nat) (idle : Nat → Bool) (cs : Cons) (tx : Uart) :
    (uartintr rx idle cs tx).tx = (uartstart idle tx.acquire).s.release ∧
    (uartintr rx idle cs tx).thr = (uartstart idle tx.acquire).thr := by
  simp [uartintr]

theorem txRun_order (t : List TxStep) :
    ∀ (k0 k : TxSys), TxInv k0.tx → txRun t k0 = some k →
      TxInv k.tx ∧ k.sent ++ k.tx.pending = k0.sent ++ k0.tx.pending ++ submitted t := by
  induction t with
  | nil =>
    intro k0 k hinv hrun
    simp only [txRun, Option.some.injEq] at hrun
    subst hrun
    exact ⟨hinv, by simp [submitted]⟩
  | cons st t ih =>
    intro k0 k hinv hrun
    cases st with
    | putc p c idle =>
      have hput := uartputc_entry p c idle k0.tx
      by_cases hfull : k0.tx.w = add64 k0.tx.r 32
      · have hf := uartputc_loop_full p c idle k0.tx.acquire hfull
        rw [txRun, hput, hf] at hrun
        simp at hrun
      · have hroom := uartputc_loop_room p c idle k0.tx.acquire hfull
        obtain ⟨s1, s2⟩ := uartputc_loop_room_inv p c idle k0.tx.acquire
          (TxInv_acquire _ hinv) hfull
        have hrun2 : txRun t ((TxStep.putc p c idle).apply k0) = some k := by
          rw [txRun, hput, hroom] at hrun
          exact hrun
        obtain ⟨i1, i2⟩ := ih _ k (by simpa only [TxStep.apply, hput] using s1) hrun2
        refine ⟨i1, ?_⟩
        rw [i2]
        simp only [TxStep.apply, hput, submitted, List.append_assoc]
        rw [← List.append_assoc _ _ (submitted t), s2, Uart.acquire_pending]
        simp
    | wake p c idle => simp [txRun] at hrun
    | intr rx idle =>
      simp only [txRun] at hrun
      obtain ⟨e1, e2⟩ := uartintr_tx rx idle k0.cons k0.tx
      obtain ⟨s1, s2⟩ := uartstart_step_inv idle k0.tx.acquire (TxInv_acquire _ hinv)
      obtain ⟨i1, i2⟩ := ih _ k
        (by simpa only [TxStep.apply, e1] using TxInv_release _ s1) hrun
      refine ⟨i1, ?_⟩
      rw [i2]
      simp only [TxStep.apply, e1, e2, submitted, List.append_assoc]
      rw [← List.append_assoc _ _ (submitted t), Uart.release_pending, s2, Uart.acquire_pending]
    | start idle =>
      simp only [txRun] at hrun
      obtain ⟨s1, s2⟩ := uartstart_step_inv idle k0.tx hinv
      obtain ⟨i1, i2⟩ := ih _ k (by simpa only [TxStep.apply] using s1) hrun
      refine ⟨i1, ?_⟩
      rw [i2]
      simp only [TxStep.apply, submitted, List.append_assoc]
      rw [← List.append_assoc _ _ (submitted t), s2]

/-- C7: transmit order is preserved. Starting from an empty transmit buffer
(`uart_tx_r = uart_tx_w`) with nothing sent yet, for every run of `uartputc`
calls none of which blocks, `uartintr` calls and `uartstart` drains, under any
readings of the transmit-idle flag, the bytes written to THR by `uartstart` so
far followed by the buffered bytes at the cursor positions
`uart_tx_r .. uart_tx_w - 1` are the submitted bytes, each truncated to eight
bits, in submission order; so the bytes sent are an initial segment of the
submitted ones. -/
theorem uart_transmit_order (t : List TxStep) (k0 k : TxSys) (hwf : k0.tx.WF)
    (hempty : k0.tx.r = k0.tx.w) (hsent : k0.sent = []) (hrun : txRun t k0 = some k) :
    k.sent ++ k.tx.pending = submitted t ∧ k.sent <+: submitted t := by
  have hinv : TxInv k0.tx := ⟨hwf, by
    obtain ⟨h1, h2⟩ := hwf
    simp only [sub64]; omega⟩
  obtain ⟨_, h⟩ := txRun_order t k0 k hinv hrun
  have hp : k0.tx.pending = [] := by
    obtain ⟨h1, h2⟩ := hwf
    have : sub64 k0.tx.w k0.tx.r = 0 := by simp only [sub64]; omega
    simp [Uart.pending, this]
  rw [hsent, hp] at h
  simp only [List.nil_append] at h
  exact ⟨h, ⟨k.tx.pending, h⟩⟩

/-- The statement of C7 at a concrete run: two bytes queued with the device
busy, an interrupt that drains one, a third byte queued with the device idle. -/
theorem uart_transmit_order_witness :
    tx_boot.tx.WF ∧ tx_boot.tx.r = tx_boot.tx.w ∧ submitted tx_trace = [65, 66, 67] ∧
    (txRunAll tx_trace tx_boot).sent ++ (txRunAll tx_trace tx_boot).tx.pending =
      submitted tx_trace ∧
    (txRunAll tx_trace tx_boot).sent <+: submitted tx_trace :=
  ⟨by decide, by decide, by decide,
    uart_transmit_order tx_trace tx_boot (txRunAll tx_trace tx_boot) (by decide) (by decide)
      rfl rfl⟩

theorem uartstart_loop_spec (idle : Nat → Bool) (fuel : Nat) :
    ∀ (i : Nat) (s : Uart) (thr : List Nat) (wk : List Chan), s.WF → sub64 s.w s.r ≤ fuel →
      ∃ j, j ≤ sub64 s.w s.r ∧
        (uartstart_loop idle fuel i s thr wk).s = { s with r := add64 s.r j } ∧
        (uartstart_loop idle fuel i s thr wk).thr =
          thr ++ (List.range j).map (fun m => s.buf (txslot (s.r + m))) ∧
        (uartstart_loop idle fuel i s thr wk).wakeups = wk ++ List.replicate j Chan.uart_tx_r ∧
        (∀ m, m < j → idle (i + m) = true) ∧
        (j = sub64 s.w s.r ∨ idle (i + j) = false) := by
  induction fuel with
  | zero =>
    intro i s thr wk hwf hf
    obtain ⟨h1, h2⟩ := hwf
    have h0 : add64 s.r 0 = s.r := by simp only [add64]; omega
    refine ⟨0, Nat.zero_le _, ?_, ?_, ?_, ?_, ?_⟩
    · rw [uartstart_loop, h0]
    · rw [uartstart_loop]; simp
    · rw [uartstart_loop]; simp
    · intro m hm; omega
    · left; omega
  | succ f ih =>
    intro i s thr wk hwf hf
    obtain ⟨h1, h2⟩ := hwf
    have h0 : add64 s.r 0 = s.r := by simp only [add64]; omega
    rw [uartstart_loop]
    by_cases e1 : s.w = s.r
    · rw [if_pos e1]
      refine ⟨0, Nat.zero_le _, ?_, ?_, ?_, ?_, ?_⟩
      · rw [h0]
      · simp
      · simp
      · intro m hm; omega
      · left; rw [e1]; simp only [sub64]; omega
    · rw [if_neg e1]
      by_cases e2 : idle i = false
      · rw [if_pos e2]
        refine ⟨0, Nat.zero_le _, ?_, ?_, ?_, ?_, ?_⟩
        · rw [h0]
        · simp
        · simp
        · intro m hm; omega
        · right; exact e2
      · rw [if_neg e2]
        have hd : sub64 s.w (add64 s.r 1) + 1 = sub64 s.w s.r := by
          simp only [sub64, add64]; omega
        obtain ⟨j, a1, a2, a3, a4, a5, a6⟩ := ih (i + 1) { s with r := add64 s.r 1 }
          (thr ++ [s.buf (txslot s.r)]) (wk ++ [Chan.uart_tx_r])
          ⟨by simp only [add64]; omega, h2⟩ (by show sub64 s.w (add64 s.r 1) ≤ f; omega)
        simp only at a1 a2 a3 a4 a6
        refine ⟨j + 1, by omega, ?_, ?_, ?_, ?_, ?_⟩
        · rw [a2]
          have : add64 (add64 s.r 1) j = add64 s.r (j + 1) := by simp only [add64]; omega
          rw [this]
        · rw [a3, List.range_succ_eq_map, List.map_cons, List.map_map, List.append_assoc]
          simp only [List.singleton_append, Nat.add_zero]
          congr 2
          apply List.map_congr_left
          intro m _
          simp only [Function.comp, txslot_add64]
          congr 2
          omega
        · rw [a4, List.replicate_succ, List.append_assoc]; rfl
        · intro m hm
          cases m with
          | zero => simpa using e2
          | succ m =>
            have := a5 m (by omega)
            rw [show i + (m + 1) = i + 1 + m by omega]
            exact this
        · rcases a6 with a6 | a6
          · left; omega
          · right
            rw [show i + (j + 1) = i + 1 + j by omega]
            exact a6

theorem uartintr_loop_spec (rx : List Nat) :
    ∀ (fuel : Nat) (cs : Cons) (echo : List Nat) (wk : List Chan) (pd : Nat),
      rx.length < fuel →
      (uartintr_loop fuel rx cs echo wk pd).1 = [] ∧
      (uartintr_loop fuel rx cs echo wk pd).2.1 =
        rx.foldl (fun a b => (consoleintr (b % 256) a).s) cs := by
  induction rx with
  | nil =>
    intro fuel cs echo wk pd hf
    cases fuel with
    | zero => simp at hf
    | succ f => simp [uartintr_loop, uartgetc]
  | cons b rest ih =>
    intro fuel cs echo wk pd hf
    cases fuel with
    | zero => simp at hf
    | succ f =>
      rw [uartintr_loop]
      have hne : ¬ (((b % 256 : Nat) : Int) = -1) := by omega
      simp only [uartgetc, if_neg hne, Int.toNat_ofNat, List.foldl_cons]
      exact ih f _ _ _ _ (by simpa using hf)

theorem uartstart_invN (idle : Nat → Bool) (s : Uart) (n : Nat) (h : TxInvN s n)
    (hn : n < 18446744073709551616) : TxInvN (uartstart idle s).s n := by
  obtain ⟨h1, h2, h3⟩ := h
  obtain ⟨a1, a2, a3, a4, a5, a6, a7⟩ := uartstart_inv idle s ⟨by omega, by omega⟩
  have := a6 h1
  refine ⟨?_, ?_, ?_⟩ <;> rw [a2] <;> omega

theorem uartputc_loop_invN (p : Proc) (c : Nat) (idle : Nat → Bool) (s : Uart) (n : Nat)
    (h : TxInvN s n) (hn : n + 1 < 18446744073709551616) :
    TxInvN (uartputc_loop p c idle s).s (n + 1) := by
  obtain ⟨h1, h2, h3⟩ := h
  by_cases hfull : s.w = add64 s.r 32
  · rw [uartputc_loop_full p c idle s hfull]
    exact ⟨h1, h2, by show s.w ≤ n + 1; omega⟩
  · rw [uartputc_loop_room p c idle s hfull]
    have hst : TxInvN (s.store c) (n + 1) := by
      simp only [add64] at hfull
      refine ⟨?_, ?_, ?_⟩
      · show s.r ≤ add64 s.w 1
        simp only [add64]; omega
      · show add64 s.w 1 ≤ s.r + 32
        simp only [add64]; omega
      · show add64 s.w 1 ≤ n + 1
        simp only [add64]; omega
    exact uartstart_invN idle (s.store c) (n + 1) hst hn

theorem uartstart_release_invN (idle : Nat → Bool) (s : Uart) (n : Nat) (h : TxInvN s n)
    (hn : n < 18446744073709551616) : TxInvN (uartstart idle s).s.release n :=
  uartstart_invN idle s n h hn

theorem txRunAll_invN (t : List TxStep) :
    ∀ (k : TxSys) (n : Nat), TxInvN k.tx n → n + puts t < 18446744073709551616 →
      TxInvN (txRunAll t k).tx (n + puts t) := by
  induction t with
  | nil => intro k n h _; exact h
  | cons st t ih =>
    intro k n h hn
    have hacq : TxInvN k.tx.acquire n := h
    cases st with
    | putc p c idle =>
      simp only [puts] at hn ⊢
      have h1 : TxInvN ((TxStep.putc p c idle).apply k).tx (n + 1) := by
        simp only [TxStep.apply, uartputc_entry]
        exact uartputc_loop_invN p c idle k.tx.acquire n hacq (by omega)
      have h2 := ih _ (n + 1) h1 (by omega)
      have e : n + (puts t + 1) = n + 1 + puts t := by omega
      rw [e]
      exact h2
    | wake p c idle =>
      simp only [puts] at hn ⊢
      have h1 : TxInvN ((TxStep.wake p c idle).apply k).tx (n + 1) := by
        simp only [TxStep.apply, uartputc_wakeup]
        exact uartputc_loop_invN p c idle k.tx.acquire n hacq (by omega)
      have h2 := ih _ (n + 1) h1 (by omega)
      have e : n + (puts t + 1) = n + 1 + puts t := by omega
      rw [e]
      exact h2
    | intr rx idle =>
      simp only [puts] at hn ⊢
      have h1 : TxInvN ((TxStep.intr rx idle).apply k).tx n := by
        simp only [TxStep.apply, (uartintr_tx rx idle k.cons k.tx).1]
        exact uartstart_release_invN idle k.tx.acquire n hacq (by omega)
      exact ih _ n h1 hn
    | start idle =>
      simp only [puts] at hn ⊢
      have h1 : TxInvN ((TxStep.start idle).apply k).tx n := by
        simp only [TxStep.apply]
        exact uartstart_invN idle k.tx n h (by omega)
      exact ih _ n h1 hn

/-- C8: transmit-buffer capacity and backpressure. In every state reached from
an empty transmit buffer by `uartputc` (entered afresh or resumed, blocking or
not), `uartstart` and `uartintr` steps, with so few `uartputc` stretches that
`uart_tx_w` has not wrapped: `uart_tx_r ≤ uart_tx_w ≤ uart_tx_r + 32`; when
`uart_tx_w - uart_tx_r < 32` a `uartputc` call returns, after a wakeup just as
at entry, having stored its byte at slot `uart_tx_w mod 32` and advanced
`uart_tx_w` by one, and no byte at a cursor position in
`uart_tx_r .. uart_tx_w - 1` is overwritten; when
`uart_tx_w = uart_tx_r + 32` the call, at entry and after every wakeup, stores
nothing and sleeps on the channel of `uart_tx_r`. -/
theorem uart_tx_capacity (t : List TxStep) (k0 : TxSys) (hempty : k0.tx.r = k0.tx.w)
    (hno : k0.tx.w + puts t < 18446744073709551616) :
    (txRunAll t k0).tx.r ≤ (txRunAll t k0).tx.w ∧
    (txRunAll t k0).tx.w ≤ (txRunAll t k0).tx.r + UART_TX_BUF_SIZE ∧
    (∀ (p : Proc) (c : Nat) (idle : Nat → Bool),
      ((txRunAll t k0).tx.w - (txRunAll t k0).tx.r < UART_TX_BUF_SIZE →
        (∃ thr wk, (uartputc 0 p c idle (txRunAll t k0).tx).outcome = PutOutcome.done thr wk) ∧
        uartputc_wakeup p c idle (txRunAll t k0).tx = uartputc 0 p c idle (txRunAll t k0).tx ∧
        (uartputc 0 p c idle (txRunAll t k0).tx).s.buf =
          Function.update (txRunAll t k0).tx.buf (txslot (txRunAll t k0).tx.w) (c % 256) ∧
        (uartputc 0 p c idle (txRunAll t k0).tx).s.w = add64 (txRunAll t k0).tx.w 1 ∧
        (∀ i, (txRunAll t k0).tx.r ≤ i → i < (txRunAll t k0).tx.w →
          (uartputc 0 p c idle (txRunAll t k0).tx).s.buf (txslot i) =
            (txRunAll t k0).tx.buf (txslot i))) ∧
      ((txRunAll t k0).tx.w = (txRunAll t k0).tx.r + UART_TX_BUF_SIZE →
        uartputc 0 p c idle (txRunAll t k0).tx =
          { s := (txRunAll t k0).tx.release,
            outcome := PutOutcome.sleeping (sleep Chan.uart_tx_r p) } ∧
        uartputc_wakeup p c idle (txRunAll t k0).tx =
          { s := (txRunAll t k0).tx.release,
            outcome := PutOutcome.sleeping (sleep Chan.uart_tx_r p) })) := by
  have h0 : TxInvN k0.tx k0.tx.w := ⟨by omega, by omega, Nat.le_refl _⟩
  obtain ⟨h1, h2, h3⟩ := txRunAll_invN t k0 k0.tx.w h0 hno
  generalize (txRunAll t k0).tx = u at h1 h2 h3 ⊢
  simp only [UART_TX_BUF_SIZE]
  refine ⟨h1, h2, fun p c idle => ⟨fun hlt => ?_, fun hfull => ?_⟩⟩
  · have hne : u.acquire.w ≠ add64 u.acquire.r 32 := by
      show u.w ≠ add64 u.r 32
      simp only [add64]; omega
    have hw : uartputc_wakeup p c idle u = uartputc 0 p c idle u := by
      rw [uartputc_entry]; rfl
    rw [uartputc_entry, uartputc_loop_room p c idle u.acquire hne]
    obtain ⟨a1, a2, a3, a4, a5, a6, a7⟩ := uartstart_inv idle (u.acquire.store c)
      ⟨by show u.r < 18446744073709551616; omega,
       by show add64 u.w 1 < 18446744073709551616; simp only [add64]; omega⟩
    refine ⟨⟨_, _, rfl⟩, ?_, ?_, ?_, ?_⟩
    · rw [hw, uartputc_entry, uartputc_loop_room p c idle u.acquire hne]
    · show (uartstart idle (u.acquire.store c)).s.buf = _
      rw [a3]; rfl
    · show (uartstart idle (u.acquire.store c)).s.w = _
      rw [a2]; rfl
    · intro i hi1 hi2
      show (uartstart idle (u.acquire.store c)).s.buf (txslot i) = _
      rw [a3]
      show Function.update u.buf (txslot u.w) (c % 256) (txslot i) = _
      rw [Function.update_noteq]
      simp only [txslot, ne_eq, Fin.mk.injEq]
      omega
  · have hf : u.acquire.w = add64 u.acquire.r 32 := by
      show u.w = add64 u.r 32
      simp only [add64]; omega
    constructor
    · rw [uartputc_entry, uartputc_loop_full p c idle u.acquire hf]; rfl
    · rw [uartputc_wakeup, uartputc_loop_full p c idle u.acquire hf]; rfl

/-- The invariant of C8 at a concrete run from the state at boot. -/
theorem uart_tx_capacity_witness :
    tx_boot.tx.r = tx_boot.tx.w ∧ tx_boot.tx.w + puts tx_trace < 18446744073709551616 ∧
    (txRunAll tx_trace tx_boot).tx.r ≤ (txRunAll tx_trace tx_boot).tx.w ∧
    (txRunAll tx_trace tx_boot).tx.w ≤ (txRunAll tx_trace tx_boot).tx.r + UART_TX_BUF_SIZE :=
  ⟨by decide, by decide, (uart_tx_capacity tx_trace tx_boot (by decide) (by decide)).1,
    (uart_tx_capacity tx_trace tx_boot (by decide) (by decide)).2.1⟩


theorem consolewrite_loop_nonneg (copyin : Nat → Option Nat) (fuel : Nat) :
    ∀ (i : Nat) (out : List Nat), 0 ≤ (consolewrite_loop copyin fuel i out).2 := by
  induction fuel with
  | zero => intro i out; simp [consolewrite_loop]
  | succ f ih =>
    intro i out
    rw [consolewrite_loop]
    cases copyin i with
    | none => simp
    | some c => exact ih (i + 1) (out ++ [c])

/-- C10 (amended): a writer that finds the transmit buffer full sleeps,
whether or not it is killed. For every `uartputc` call, at entry (with the
panic flag clear) or after a wakeup, that finds
`uart_tx_w = uart_tx_r + 32`: it stores nothing, releases the lock and
sleeps on the channel of `uart_tx_r`; the killed flag of the task is neither
read nor changed. Every value returned by `consolewrite` is a count of bytes,
never negative. -/
theorem uartputc_full_sleeps (panicked : Int) (p : Proc) (c : Nat) (idle : Nat → Bool) (s : Uart)
    (hp : panicked = 0) (hfull : s.w = add64 s.r UART_TX_BUF_SIZE) :
    uartputc panicked p c idle s =
      { s := s.release, outcome := PutOutcome.sleeping (sleep Chan.uart_tx_r p) } ∧
    uartputc_wakeup p c idle s =
      { s := s.release, outcome := PutOutcome.sleeping (sleep Chan.uart_tx_r p) } ∧
    (sleep Chan.uart_tx_r p).killed = p.killed ∧
    ∀ (copyin : Nat → Option Nat) (n : Int), 0 ≤ (consolewrite copyin n).2 := by
  subst hp
  have hf : s.acquire.w = add64 s.acquire.r 32 := hfull
  refine ⟨?_, ?_, rfl, fun copyin n => consolewrite_loop_nonneg copyin _ _ _⟩
  · rw [uartputc_entry, uartputc_loop_full p c idle s.acquire hf]; rfl
  · rw [uartputc_wakeup, uartputc_loop_full p c idle s.acquire hf]; rfl

set_option maxRecDepth 8192 in
/-- The amended statement of C10 for a killed task writing to the full
transmit buffer. -/
theorem uartputc_full_sleeps_witness :
    tx_full.w = add64 tx_full.r UART_TX_BUF_SIZE ∧
    (uartputc 0 task_killed 65 tx_idle tx_full =
      { s := tx_full.release, outcome := PutOutcome.sleeping (sleep Chan.uart_tx_r task_killed) } ∧
    uartputc_wakeup task_killed 65 tx_idle tx_full =
      { s := tx_full.release, outcome := PutOutcome.sleeping (sleep Chan.uart_tx_r task_killed) } ∧
    (sleep Chan.uart_tx_r task_killed).killed = task_killed.killed ∧
    ∀ (copyin : Nat → Option Nat) (n : Int), 0 ≤ (consolewrite copyin n).2) :=
  ⟨by decide, uartputc_full_sleeps 0 task_killed 65 tx_idle tx_full rfl (by decide)⟩

set_option maxRecDepth 8192 in
/-- C10 (as stated) fails: a killed task is woken while the transmit buffer,
filled by 32 queued bytes, is still full. The call does not end with an
error: it sleeps again on the channel of `uart_tx_r`, with the cursors
unchanged. -/
theorem uartputc_killed_counterexample :
    killed task_killed ≠ 0 ∧ tx_full.w = add64 tx_full.r UART_TX_BUF_SIZE ∧
    (uartputc_wakeup task_killed 65 tx_idle tx_full).outcome =
      PutOutcome.sleeping (sleep Chan.uart_tx_r task_killed) ∧
    (sleep Chan.uart_tx_r task_killed).state = Procstate.SLEEPING ∧
    (sleep Chan.uart_tx_r task_killed).chan = some Chan.uart_tx_r ∧
    (uartputc_wakeup task_killed 65 tx_idle tx_full).s.w = tx_full.w ∧
    (uartputc_wakeup task_killed 65 tx_idle tx_full).s.r = tx_full.r := by
  decide

/-! ## Partial transfers and the default input path -/

theorem consolewrite_loop_spec (copyin : Nat → Option Nat) (j : Nat) :
    ∀ (fuel i : Nat) (out : List Nat), j ≤ fuel →
      (∀ m, m < j → (copyin (i + m)).isSome = true) →
      (j = fuel ∨ copyin (i + j) = none) →
      consolewrite_loop copyin fuel i out =
        (out ++ (List.range j).map (fun m => (copyin (i + m)).getD 0), ((i + j : Nat) : Int)) := by
  induction j with
  | zero =>
    intro fuel i out _ _ hstop
    cases fuel with
    | zero => simp [consolewrite_loop]
    | succ f =>
      rcases hstop with h | h
      · omega
      · rw [consolewrite_loop]
        simp only [Nat.add_zero] at h
        rw [h]
        simp
  | succ j ih =>
    intro fuel i out hle hok hstop
    cases fuel with
    | zero => omega
    | succ f =>
      have h0 := hok 0 (by omega)
      simp only [Nat.add_zero] at h0
      obtain ⟨c, hc⟩ := Option.isSome_iff_exists.mp h0
      rw [consolewrite_loop, hc]
      simp only
      rw [ih f (i + 1) (out ++ [c]) (by omega)
        (fun m hm => by
          have := hok (m + 1) (by omega)
          rw [show i + 1 + m = i + (m + 1) by omega]; exact this)
        (by
          rcases hstop with h | h
          · left; omega
          · right; rw [show i + 1 + j = i + (j + 1) by omega]; exact h)]
      rw [List.range_succ_eq_map, List.map_cons, List.map_map, List.append_assoc]
      simp only [List.singleton_append, Nat.add_zero, hc, Option.getD_some]
      have hmap : List.map (fun m => (copyin (i + 1 + m)).getD 0) (List.range j) =
          List.map ((fun m => (copyin (i + m)).getD 0) ∘ Nat.succ) (List.range j) := by
        apply List.map_congr_left
        intro m _
        simp only [Function.comp]
        rw [show i + 1 + m = i + (m + 1) by omega]
      have hlen : i + 1 + j = i + (j + 1) := by omega
      rw [hmap, hlen]

theorem consoleread_loop_copyfail (p : Proc) (copyout : Nat → Bool) (target n : Nat) (s : Cons)
    (dst : List Nat) (hne : s.r ≠ s.w) (hb : s.buf (slot s.r) ≠ 4)
    (hc : copyout dst.length = false) :
    consoleread_loop p copyout target (n + 1) s dst =
      { s := { s with lock := false, r := add32 s.r 1 }, dst := dst,
        outcome := ReadOutcome.ret (target - (n + 1) : Nat) } := by
  rw [consoleread_loop]
  simp [if_neg hne, hb, C, hc, Cons.release]

/-- C11: a partial transfer returns the count so far. For every
`consolewrite` whose copy-in first fails at index `k < n`, exactly the bytes
fetched at the indices `0 .. k-1` are handed to `uartputc`, in index order,
and the value returned is `k`; when no copy-in fails, all `n2` bytes are handed
over in order and the value returned is `n2`. For every `consoleread` (seen
from any point of its loop, with `dst` delivered so far and
`dst.length + m = target`) whose copy-out first fails after `j` more ordinary
bytes, the value returned is the number of bytes delivered,
`dst.length + j`. -/
theorem partial_transfer_count
    (copyin : Nat → Option Nat) (n k : Nat) (hk : k < n)
    (hok : ∀ i, i < k → (copyin i).isSome = true) (hfail : copyin k = none)
    (copyin2 : Nat → Option Nat) (n2 : Nat) (hok2 : ∀ i, i < n2 → (copyin2 i).isSome = true)
    (p : Proc) (copyout : Nat → Bool) (target m j : Nat) (s : Cons) (dst : List Nat)
    (hwf : s.WF) (hcall : dst.length + m = target) (hjm : j < m) (hreg : j < sub32 s.w s.r)
    (hord : ∀ i, i < j → s.buf (slot (s.r + i)) ≠ 10 ∧ s.buf (slot (s.r + i)) ≠ 4)
    (hnext : s.buf (slot (s.r + j)) ≠ 4)
    (hcopy : ∀ i, i < j → copyout (dst.length + i) = true)
    (hcfail : copyout (dst.length + j) = false) :
    consolewrite copyin (n : Int) = (fetched copyin k, (k : Int)) ∧
    consolewrite copyin2 (n2 : Int) = (fetched copyin2 n2, (n2 : Int)) ∧
    (consoleread_loop p copyout target m s dst).outcome = ReadOutcome.ret ((dst.length + j : Nat) : Int) ∧
    (consoleread_loop p copyout target m s dst).dst = dst ++ s.region j := by
  refine ⟨?_, ?_, ?_⟩
  · unfold consolewrite fetched
    rw [Int.toNat_ofNat, consolewrite_loop_spec copyin k n 0 [] (by omega)
      (fun i hi => by simpa using hok i hi) (by right; simpa using hfail)]
    simp
  · unfold consolewrite fetched
    rw [Int.toNat_ofNat, consolewrite_loop_spec copyin2 n2 n2 0 [] (Nat.le_refl _)
      (fun i hi => by simpa using hok2 i hi) (by left; rfl)]
    simp
  · obtain ⟨h1, h2, h3⟩ := hwf
    have hsplit : m = (m - j - 1 + 1) + j := by omega
    have step := consoleread_loop_ordinary p copyout target j (m - j - 1 + 1) s dst
      ⟨h1, h2, h3⟩ (by omega) hord hcopy
    rw [← hsplit] at step
    rw [step, consoleread_loop_copyfail p copyout target (m - j - 1) _ _
      (by
        show add32 s.r j ≠ s.w
        simp only [sub32, add32] at hreg ⊢; omega)
      (by
        show s.buf (slot (add32 s.r j)) ≠ 4
        rw [slot_add32_zero]; exact hnext)
      (by
        rw [List.length_append, region_length]; exact hcfail)]
    refine ⟨?_, rfl⟩
    show ReadOutcome.ret ((target - (m - j - 1 + 1) : Nat) : Int) = _
    congr 2
    omega

/-- The statement of C11 at concrete calls: a write of 5 bytes whose copy-in
fails at index 2, a write of 3 bytes that all succeed, and a read of up to 10
bytes of the line `a`, `b`, newline whose copy-out fails after one byte. -/
theorem partial_transfer_count_witness :
    copyin_two 2 = none ∧ copy_one (0 + 1) = false ∧
    (consolewrite copyin_two ((5 : Nat) : Int) = (fetched copyin_two 2, ((2 : Nat) : Int)) ∧
    consolewrite copyin_all ((3 : Nat) : Int) = (fetched copyin_all 3, ((3 : Nat) : Int)) ∧
    (consoleread_loop task_running copy_one 10 10 line_then_tail []).outcome =
      ReadOutcome.ret ((([] : List Nat).length + 1 : Nat) : Int) ∧
    (consoleread_loop task_running copy_one 10 10 line_then_tail []).dst =
      [] ++ line_then_tail.region 1) :=
  ⟨rfl, rfl,
    partial_transfer_count copyin_two 5 2 (by decide) (by decide) rfl copyin_all 3
      (fun _ _ => rfl) task_running copy_one 10 10 1 line_then_tail [] (by decide) (by decide)
      (by decide) (by decide) (by decide) (by decide) (by decide) rfl⟩

/-- C12 (amended): a copy failure with zero bytes transferred returns the
count 0. For every `consolewrite` call with `n > 0` whose very first copy-in
fails, nothing is handed to `uartputc` and the value returned is 0; for every
`consoleread` call with `m > 0` (at entry, or resumed before any byte was
delivered) whose very first copy-out fails, nothing is delivered and the value
returned is 0. -/
theorem first_copy_failure_returns_zero
    (copyin : Nat → Option Nat) (n : Nat) (hn : 0 < n) (hfail : copyin 0 = none)
    (p : Proc) (copyout : Nat → Bool) (m : Nat) (s : Cons) (hm : 0 < m)
    (hne : s.r ≠ s.w) (hb : s.buf (slot s.r) ≠ 4) (hc : copyout 0 = false) :
    consolewrite copyin (n : Int) = ([], 0) ∧
    (consoleread p copyout m s).outcome = ReadOutcome.ret 0 ∧
    (consoleread p copyout m s).dst = [] ∧
    (consoleread_wakeup p copyout m m [] s).outcome = ReadOutcome.ret 0 := by
  have hm1 : m = (m - 1) + 1 := by omega
  have hread : consoleread_loop p copyout m m s.acquire [] =
      { s := { s.acquire with lock := false, r := add32 s.acquire.r 1 }, dst := [],
        outcome := ReadOutcome.ret ((0 : Nat) : Int) } := by
    have := consoleread_loop_copyfail p copyout m (m - 1) s.acquire [] hne hb hc
    rw [← hm1, Nat.sub_self] at this
    exact this
  refine ⟨?_, ?_, ?_, ?_⟩
  · unfold consolewrite
    rw [Int.toNat_ofNat, consolewrite_loop_spec copyin 0 n 0 [] (by omega)
      (fun i hi => by omega) (by right; simpa using hfail)]
    simp
  · unfold consoleread; rw [hread]; rfl
  · unfold consoleread; rw [hread]
  · unfold consoleread_wakeup; rw [hread]; rfl

/-- The amended statement of C12 at a write of 5 bytes and a read of up to 10
bytes, with every copy failing. -/
theorem first_copy_failure_returns_zero_witness :
    copyin_fails 0 = none ∧ line_then_tail.r ≠ line_then_tail.w ∧
    line_then_tail.buf (slot line_then_tail.r) ≠ 4 ∧
    (consolewrite copyin_fails ((5 : Nat) : Int) = ([], 0) ∧
    (consoleread task_running copy_fails 10 line_then_tail).outcome = ReadOutcome.ret 0 ∧
    (consoleread task_running copy_fails 10 line_then_tail).dst = [] ∧
    (consoleread_wakeup task_running copy_fails 10 10 [] line_then_tail).outcome =
      ReadOutcome.ret 0) :=
  ⟨rfl, by decide, by decide,
    first_copy_failure_returns_zero copyin_fails 5 (by decide) rfl task_running copy_fails 10
      line_then_tail (by decide) (by decide) (by decide) rfl⟩

/-- C12 (as stated) fails: with every copy failing, a write of 5 bytes
returns 0, which is not negative, and a read of up to 10 bytes from a console
that holds a line delivers nothing and returns 0 as well. -/
theorem first_copy_failure_counterexample :
    copyin_fails 0 = none ∧
    (consolewrite copyin_fails 5).2 = 0 ∧ ¬ ((consolewrite copyin_fails 5).2 < 0) ∧
    line_then_tail.r ≠ line_then_tail.w ∧ copy_fails 0 = false ∧
    (consoleread task_running copy_fails 10 line_then_tail).dst = [] ∧
    (consoleread task_running copy_fails 10 line_then_tail).outcome = ReadOutcome.ret 0 := by
  decide

/-- C13: default input handling. For every console state and every byte `c`
other than Ctrl-P, Ctrl-U, Ctrl-H and 0x7f: if `c` is not 0 and `e - r < 128`,
`consoleintr(c)` echoes through `consputc` the byte `c` with carriage return
turned into newline, stores that byte at slot `e mod 128` (no other slot
changes), advances `e` by exactly one and leaves `r`; otherwise nothing is
echoed, no wakeup is issued and `r`, `w`, `e` and every buffer byte are
unchanged. -/
theorem consoleintr_default_input (c : Nat) (s : Cons) (hc : c < 256)
    (h1 : c ≠ 16) (h2 : c ≠ 21) (h3 : c ≠ 8) (h4 : c ≠ 127) :
    (c ≠ 0 ∧ sub32 s.e s.r < INPUT_BUF_SIZE →
      (consoleintr c s).echo = [normalized c] ∧
      (consoleintr c s).s.buf = Function.update s.buf (slot s.e) (normalized c) ∧
      (consoleintr c s).s.e = add32 s.e 1 ∧
      (consoleintr c s).s.r = s.r) ∧
    (¬ (c ≠ 0 ∧ sub32 s.e s.r < INPUT_BUF_SIZE) →
      (consoleintr c s).echo = [] ∧ (consoleintr c s).wakeups = [] ∧
      (consoleintr c s).s.r = s.r ∧ (consoleintr c s).s.w = s.w ∧
      (consoleintr c s).s.e = s.e ∧ (consoleintr c s).s.buf = s.buf) := by
  rw [consoleintr_default c s h1 h2 h3 h4]
  have hn : normalized c % 256 = normalized c := by
    unfold normalized; split_ifs <;> omega
  unfold normalized at hn
  unfold INPUT_BUF_SIZE normalized
  constructor
  · intro hs
    rw [if_pos hs, hn]
    split_ifs <;> exact ⟨rfl, rfl, rfl, rfl⟩
  · intro hs
    rw [if_neg hs]
    exact ⟨rfl, rfl, rfl, rfl, rfl, rfl⟩


/-- The statement of C13 for the letter `a` typed at boot. -/
theorem consoleintr_default_input_witness :
    (97 : Nat) < 256 ∧
    ((97 ≠ 0 ∧ sub32 Cons.init.e Cons.init.r < INPUT_BUF_SIZE →
      (consoleintr 97 Cons.init).echo = [normalized 97] ∧
      (consoleintr 97 Cons.init).s.buf =
        Function.update Cons.init.buf (slot Cons.init.e) (normalized 97) ∧
      (consoleintr 97 Cons.init).s.e = add32 Cons.init.e 1 ∧
      (consoleintr 97 Cons.init).s.r = Cons.init.r) ∧
    (¬ (97 ≠ 0 ∧ sub32 Cons.init.e Cons.init.r < INPUT_BUF_SIZE) →
      (consoleintr 97 Cons.init).echo = [] ∧ (consoleintr 97 Cons.init).wakeups = [] ∧
      (consoleintr 97 Cons.init).s.r = Cons.init.r ∧ (consoleintr 97 Cons.init).s.w = Cons.init.w ∧
      (consoleintr 97 Cons.init).s.e = Cons.init.e ∧
      (consoleintr 97 Cons.init).s.buf = Cons.init.buf)) :=
  ⟨by decide,
    consoleintr_default_input 97 Cons.init (by decide) (by decide) (by decide) (by decide)
      (by decide)⟩

/-- C14: backspace and delete erase at most one uncommitted character. For
every console state and `c` either Ctrl-H (0x08) or 0x7f: when `e ≠ w`,
`consoleintr(c)` decrements `e` by exactly one and hands one BACKSPACE to
`consputc`; when `e = w` it changes nothing and emits nothing; in both cases
`r`, `w` and the buffer are unchanged and no wakeup is issued, and `e` stays at
or above `w`. -/
theorem consoleintr_backspace (c : Nat) (s : Cons) (hc : c = 8 ∨ c = 127) :
    (s.e ≠ s.w → (consoleintr c s).s.e = sub32 s.e 1 ∧ (consoleintr c s).echo = [BACKSPACE]) ∧
    (s.e = s.w → (consoleintr c s).s.e = s.e ∧ (consoleintr c s).echo = []) ∧
    (consoleintr c s).s.r = s.r ∧ (consoleintr c s).s.w = s.w ∧
    (consoleintr c s).s.buf = s.buf ∧ (consoleintr c s).wakeups = [] ∧
    (s.w ≤ s.e → s.e < 4294967296 → s.w ≤ (consoleintr c s).s.e) := by
  rw [consoleintr_H c s hc]
  by_cases h : s.e ≠ s.w
  · rw [if_pos h]
    refine ⟨fun _ => ⟨rfl, rfl⟩, fun he => absurd he h, rfl, rfl, rfl, rfl, fun hw he => ?_⟩
    show s.w ≤ sub32 s.e 1
    simp only [sub32]; omega
  · rw [if_neg h]
    exact ⟨fun he => absurd he h, fun _ => ⟨rfl, rfl⟩, rfl, rfl, rfl, rfl, fun hw _ => hw⟩


/-- The statement of C14 for a backspace typed after `a`, `b`, newline, `c`,
`d`. -/
theorem consoleintr_backspace_witness :
    ((8 : Nat) = 8 ∨ (8 : Nat) = 127) ∧
    ((line_then_tail.e ≠ line_then_tail.w →
      (consoleintr 8 line_then_tail).s.e = sub32 line_then_tail.e 1 ∧
      (consoleintr 8 line_then_tail).echo = [BACKSPACE]) ∧
    (line_then_tail.e = line_then_tail.w →
      (consoleintr 8 line_then_tail).s.e = line_then_tail.e ∧
      (consoleintr 8 line_then_tail).echo = []) ∧
    (consoleintr 8 line_then_tail).s.r = line_then_tail.r ∧
    (consoleintr 8 line_then_tail).s.w = line_then_tail.w ∧
    (consoleintr 8 line_then_tail).s.buf = line_then_tail.buf ∧
    (consoleintr 8 line_then_tail).wakeups = [] ∧
    (line_then_tail.w ≤ line_then_tail.e → line_then_tail.e < 4294967296 →
      line_then_tail.w ≤ (consoleintr 8 line_then_tail).s.e)) :=
  ⟨by decide, consoleintr_backspace 8 line_then_tail (by decide)⟩

/-- C18: backspace rendering. BACKSPACE is the out-of-band value 0x100;
`consputc(BACKSPACE)` hands exactly the three bytes 0x08, 0x20, 0x08 to
`uartputc_sync`, in that order, and for every other value `c`, `consputc(c)`
hands over exactly the single value `c`. -/
theorem consputc_rendering :
    BACKSPACE = 0x100 ∧ consputc BACKSPACE = [8, 32, 8] ∧
    ∀ c, c ≠ BACKSPACE → consputc c = [c] := by
  refine ⟨rfl, rfl, fun c hc => ?_⟩
  unfold consputc
  rw [if_neg hc]

/-- C19: `uartstart` drains as far as the device allows and notifies once per
byte. For every transmit state and every sequence of transmit-idle readings,
`uartstart` sends `j` bytes, where the first `j` readings are idle and either
`j` is the number `uart_tx_w - uart_tx_r` of buffered bytes or the reading
after them is busy; it writes the bytes at the cursor positions
`uart_tx_r .. uart_tx_r + j - 1` to THR in that order, advances `uart_tx_r` by
`j`, issues exactly `j` wakeups on the channel of `uart_tx_r`, and leaves
`uart_tx_w`, the buffer and the lock unchanged; `j = 0` with no change at all
when the buffer is empty or the device is busy on entry. -/
theorem uartstart_drains (idle : Nat → Bool) (s : Uart) (hwf : s.WF) :
    ∃ j, j ≤ sub64 s.w s.r ∧
      (∀ m, m < j → idle m = true) ∧
      (j = sub64 s.w s.r ∨ idle j = false) ∧
      (uartstart idle s).thr = (List.range j).map (fun m => s.buf (txslot (s.r + m))) ∧
      (uartstart idle s).s.r = add64 s.r j ∧
      (uartstart idle s).wakeups = List.replicate j Chan.uart_tx_r ∧
      (uartstart idle s).s.w = s.w ∧ (uartstart idle s).s.buf = s.buf ∧
      (uartstart idle s).s.lock = s.lock ∧
      ((s.w = s.r ∨ idle 0 = false) → j = 0 ∧ (uartstart idle s).s = s) := by
  obtain ⟨j, a1, a2, a3, a4, a5, a6⟩ :=
    uartstart_loop_spec idle (sub64 s.w s.r) 0 s [] [] hwf (Nat.le_refl _)
  unfold uartstart
  refine ⟨j, a1, ?_, ?_, ?_, ?_, ?_, ?_, ?_, ?_, ?_⟩
  · intro m hm; simpa using a5 m hm
  · simpa using a6
  · rw [a3]; rfl
  · rw [a2]
  · rw [a4]; rfl
  · rw [a2]
  · rw [a2]
  · rw [a2]
  · intro h0
    have hj : j = 0 := by
      rcases h0 with h0 | h0
      · have : sub64 s.w s.r = 0 := by
          obtain ⟨h1, h2⟩ := hwf
          rw [h0]; simp only [sub64]; omega
        omega
      · by_contra hne
        have := a5 0 (by omega)
        simp only [Nat.add_zero] at this
        rw [this] at h0
        exact Bool.noConfusion h0
    refine ⟨hj, ?_⟩
    rw [a2, hj]
    have : add64 s.r 0 = s.r := by
      obtain ⟨h1, h2⟩ := hwf
      simp only [add64]; omega
    rw [this]

/-- The statement of C19 for two buffered bytes and a device that accepts one
byte and is then busy: one byte is sent. -/
theorem uartstart_drains_witness :
    tx_two.WF ∧ (uartstart tx_idle_once tx_two).thr = [65] ∧
    (uartstart tx_idle_once tx_two).s.r = 1 ∧
    ∃ j, j ≤ sub64 tx_two.w tx_two.r ∧
      (∀ m, m < j → tx_idle_once m = true) ∧
      (j = sub64 tx_two.w tx_two.r ∨ tx_idle_once j = false) ∧
      (uartstart tx_idle_once tx_two).thr =
        (List.range j).map (fun m => tx_two.buf (txslot (tx_two.r + m))) ∧
      (uartstart tx_idle_once tx_two).s.r = add64 tx_two.r j ∧
      (uartstart tx_idle_once tx_two).wakeups = List.replicate j Chan.uart_tx_r ∧
      (uartstart tx_idle_once tx_two).s.w = tx_two.w ∧
      (uartstart tx_idle_once tx_two).s.buf = tx_two.buf ∧
      (uartstart tx_idle_once tx_two).s.lock = tx_two.lock ∧
      ((tx_two.w = tx_two.r ∨ tx_idle_once 0 = false) →
        j = 0 ∧ (uartstart tx_idle_once tx_two).s = tx_two) :=
  ⟨by decide, by decide, by decide, uartstart_drains tx_idle_once tx_two (by decide)⟩


/-! ## The interrupt handler of the UART -/

theorem uartstart_loop_wakeups_all (idle : Nat → Bool) (fuel : Nat) :
    ∀ (i : Nat) (s : Uart) (thr : List Nat) (wk : List Chan),
      (∀ x, x ∈ wk → x = Chan.uart_tx_r) →
      ∀ x, x ∈ (uartstart_loop idle fuel i s thr wk).wakeups → x = Chan.uart_tx_r := by
  induction fuel with
  | zero => intro i s thr wk hwk x hx; rw [uartstart_loop] at hx; exact hwk x hx
  | succ f ih =>
    intro i s thr wk hwk x hx
    rw [uartstart_loop] at hx
    split_ifs at hx
    · exact hwk x hx
    · exact hwk x hx
    · apply ih (i + 1) _ _ (wk ++ [Chan.uart_tx_r]) _ x hx
      intro y hy
      rcases List.mem_append.mp hy with h | h
      · exact hwk y h
      · simpa using h

theorem uartstart_loop_wakeups (idle : Nat → Bool) (fuel i : Nat) (s : Uart) (thr : List Nat) :
    ∀ x, x ∈ (uartstart_loop idle fuel i s thr []).wakeups → x = Chan.uart_tx_r :=
  uartstart_loop_wakeups_all idle fuel i s thr [] (fun x hx => by simp at hx)

theorem consoleintr_wakeups_cons_r (c : Nat) (s : Cons) :
    ∀ x, x ∈ (consoleintr c s).wakeups → x = Chan.cons_r := by
  intro x hx
  by_cases c1 : c = 16
  · subst c1; rw [consoleintr_P] at hx; simp at hx
  by_cases c2 : c = 21
  · subst c2; rw [consoleintr_U] at hx; simp at hx
  by_cases c3 : c = 8 ∨ c = 127
  · rw [consoleintr_H c s c3] at hx
    split_ifs at hx <;> simp at hx
  · rw [consoleintr_default c s c1 c2 (by omega) (by omega)] at hx
    split_ifs at hx <;> simp at hx <;> exact hx

theorem uartintr_loop_wakeups (rx : List Nat) :
    ∀ (fuel : Nat) (cs : Cons) (echo : List Nat) (wk : List Chan) (pd : Nat),
      ∃ wk2, (uartintr_loop fuel rx cs echo wk pd).2.2.2.1 = wk ++ wk2 ∧
        ∀ x, x ∈ wk2 → x = Chan.cons_r := by
  induction rx with
  | nil =>
    intro fuel cs echo wk pd
    refine ⟨[], ?_, fun x hx => by simp at hx⟩
    cases fuel with
    | zero => simp [uartintr_loop]
    | succ f => simp [uartintr_loop, uartgetc]
  | cons b rest ih =>
    intro fuel cs echo wk pd
    cases fuel with
    | zero => exact ⟨[], by simp [uartintr_loop], fun x hx => by simp at hx⟩
    | succ f =>
      rw [uartintr_loop]
      have hne : ¬ (((b % 256 : Nat) : Int) = -1) := by omega
      simp only [uartgetc, if_neg hne, Int.toNat_ofNat]
      obtain ⟨wk2, e1, e2⟩ := ih f (consoleintr (b % 256) cs).s
        (echo ++ (consoleintr (b % 256) cs).echo) (wk ++ (consoleintr (b % 256) cs).wakeups)
        (pd + (consoleintr (b % 256) cs).procdumps)
      refine ⟨(consoleintr (b % 256) cs).wakeups ++ wk2, ?_, ?_⟩
      · rw [e1, List.append_assoc]
      · intro x hx
        rcases List.mem_append.mp hx with h | h
        · exact consoleintr_wakeups_cons_r _ _ x h
        · exact e2 x h

theorem feed_bytes (q : List Nat) (hq : ∀ b, b ∈ q → b < 256) (cs : Cons) :
    q.foldl (fun a b => (consoleintr (b % 256) a).s) cs = feed q cs := by
  induction q generalizing cs with
  | nil => rfl
  | cons b rest ih =>
    have hb : b % 256 = b := Nat.mod_eq_of_lt (hq b (List.mem_cons_self b rest))
    simp only [List.foldl_cons, feed, hb]
    exact ih (fun x hx => hq x (List.mem_cons_of_mem b hx)) _

/-- C15: the interrupt handler drains all pending input, then output. With
the receive side of the device a queue `q` of pending bytes (`uartgetc`
returns `-1` on the empty queue and otherwise returns and removes the head
byte), `uartintr` leaves the queue empty and leaves the console in the state
obtained by handing the bytes of `q` to `consoleintr` one by one in arrival
order; it then performs one `uartstart` drain of the transmit buffer with
`uart_tx_lock` held and releases the lock; in its list of wakeups those of the
console (channel of `cons.r`) all come before those of the drain (channel of
`uart_tx_r`). -/
theorem uartintr_drains_input_then_output (q : List Nat) (idle : Nat → Bool) (cs : Cons)
    (tx : Uart) (hq : ∀ b, b ∈ q → b < 256) :
    (uartgetc [] = (-1, []) ∧ ∀ b rest, b < 256 → uartgetc (b :: rest) = ((b : Int), rest)) ∧
    (uartintr q idle cs tx).rx = [] ∧
    (uartintr q idle cs tx).cons = feed q cs ∧
    tx.acquire.lock = true ∧
    (uartintr q idle cs tx).tx = (uartstart idle tx.acquire).s.release ∧
    (uartintr q idle cs tx).thr = (uartstart idle tx.acquire).thr ∧
    ∃ wk, (uartintr q idle cs tx).wakeups = wk ++ (uartstart idle tx.acquire).wakeups ∧
      (∀ x, x ∈ wk → x = Chan.cons_r) ∧
      (∀ x, x ∈ (uartstart idle tx.acquire).wakeups → x = Chan.uart_tx_r) := by
  obtain ⟨l1, l2⟩ := uartintr_loop_spec q (q.length + 1) cs [] [] 0 (Nat.lt_succ_self _)
  obtain ⟨wk, w1, w2⟩ := uartintr_loop_wakeups q (q.length + 1) cs [] [] 0
  refine ⟨⟨rfl, fun b rest hb => ?_⟩, l1, ?_, rfl, rfl, rfl, wk, ?_, w2, ?_⟩
  · simp only [uartgetc, Nat.mod_eq_of_lt hb]
  · show (uartintr_loop (q.length + 1) q cs [] [] 0).2.1 = feed q cs
    rw [l2, feed_bytes q hq]
  · show (uartintr_loop (q.length + 1) q cs [] [] 0).2.2.2.1 ++ _ = _
    rw [w1, List.nil_append]
  · intro x hx
    unfold uartstart at hx
    exact uartstart_loop_wakeups idle _ 0 tx.acquire [] x hx

/-- The statement of C15 for the pending input `a`, newline on the machine at
boot. -/
theorem uartintr_drains_input_then_output_witness :
    (uartintr [97, 10] tx_idle Cons.init Uart.init).rx = [] ∧
    (uartintr [97, 10] tx_idle Cons.init Uart.init).cons = feed [97, 10] Cons.init ∧
    (uartintr [97, 10] tx_idle Cons.init Uart.init).cons.w = 2 ∧
    (uartintr [97, 10] tx_idle Cons.init Uart.init).tx =
      (uartstart tx_idle Uart.init.acquire).s.release :=
  ⟨(uartintr_drains_input_then_output [97, 10] tx_idle Cons.init Uart.init (by decide)).2.1,
   (uartintr_drains_input_then_output [97, 10] tx_idle Cons.init Uart.init (by decide)).2.2.1,
   by decide,
   (uartintr_drains_input_then_output [97, 10] tx_idle Cons.init Uart.init
      (by decide)).2.2.2.2.1⟩


/-! ## Uncommitted input -/

theorem consoleread_loop_frame (p : Proc) (copyout : Nat → Bool) (target n : Nat) (s : Cons)
    (dst : List Nat) :
    (consoleread_loop p copyout target n s dst).s.w = s.w ∧
    (consoleread_loop p copyout target n s dst).s.e = s.e ∧
    (consoleread_loop p copyout target n s dst).s.buf = s.buf := by
  induction n generalizing s dst with
  | zero => rw [consoleread_loop]; exact ⟨rfl, rfl, rfl⟩
  | succ m ih =>
    rw [consoleread_loop]
    by_cases e1 : s.r = s.w
    · rw [if_pos e1]
      split_ifs <;> exact ⟨rfl, rfl, rfl⟩
    · rw [if_neg e1]
      dsimp only
      split_ifs
      · exact ⟨rfl, rfl, rfl⟩
      · exact ⟨rfl, rfl, rfl⟩
      · exact ⟨rfl, rfl, rfl⟩
      · exact ⟨rfl, rfl, rfl⟩
      · exact ih _ _

theorem NoPendingTerminator_shrink (s : Cons) (j : Nat) (b : Bool) (hwf : s.WF)
    (hj : j ≤ sub32 s.e s.w) (h : NoPendingTerminator s) :
    NoPendingTerminator { s with lock := b, e := sub32 s.e j } := by
  intro i hi
  apply h i
  obtain ⟨h1, h2, h3⟩ := hwf
  simp only [sub32] at hi hj ⊢
  omega

theorem consoleintr_no_pending (c : Nat) (s : Cons) (hc : c < 256) (hm : CursorsMod s)
    (h : NoPendingTerminator s) : NoPendingTerminator (consoleintr c s).s := by
  obtain ⟨⟨h1, h2, h3⟩, h4, h5⟩ := hm
  have h0 : sub32 s.e 0 = s.e := by simp only [sub32]; omega
  by_cases c1 : c = 16
  · subst c1; rw [consoleintr_P]; exact h
  by_cases c2 : c = 21
  · subst c2; rw [consoleintr_U]
    obtain ⟨j, hj, hs, _, _, _⟩ :=
      killLine_spec (sub32 s.e s.w) { s with lock := true } [] ⟨h1, h2, h3⟩ (Nat.le_refl _)
    simp only at hj hs
    rw [hs]
    exact NoPendingTerminator_shrink s j false ⟨h1, h2, h3⟩ hj h
  by_cases c3 : c = 8 ∨ c = 127
  · rw [consoleintr_H c s c3]
    by_cases he : s.e ≠ s.w
    · rw [if_pos he]
      exact NoPendingTerminator_shrink s 1 false ⟨h1, h2, h3⟩
        (by simp only [sub32]; omega) h
    · rw [if_neg he]; exact h
  · rw [consoleintr_default c s c1 c2 (by omega) (by omega)]
    have hn : (if c = 13 then 10 else c) % 256 = (if c = 13 then 10 else c) := by
      split_ifs <;> omega
    by_cases hs : c ≠ 0 ∧ sub32 s.e s.r < 128
    · rw [if_pos hs, hn]
      by_cases hl : (if c = 13 then 10 else c) = 10 ∨ (if c = 13 then 10 else c) = 4 ∨
            sub32 (add32 s.e 1) s.r = 128
      · rw [if_pos hl]
        intro i hi
        exfalso
        simp only [sub32, add32] at hi
        omega
      · rw [if_neg hl]
        intro i hi
        show Function.update s.buf (slot s.e) (if c = 13 then 10 else c) (slot (s.w + i)) ≠ 10 ∧
          Function.update s.buf (slot s.e) (if c = 13 then 10 else c) (slot (s.w + i)) ≠ 4
        have hi2 : i < sub32 (add32 s.e 1) s.w := hi
        by_cases hlast : i = sub32 s.e s.w
        · have hslot : slot (s.w + i) = slot s.e := by
            simp only [slot, Fin.mk.injEq]
            rw [hlast]
            simp only [sub32]
            omega
          rw [hslot, Function.update_same]
          exact ⟨fun h10 => hl (Or.inl h10), fun h4 => hl (Or.inr (Or.inl h4))⟩
        · have hlt : i < sub32 s.e s.w := by
            simp only [sub32, add32] at hi2 hlast hs ⊢
            omega
          have hslot : slot (s.w + i) ≠ slot s.e := by
            simp only [slot, ne_eq, Fin.mk.injEq]
            simp only [sub32] at hlt h4 h5 hs
            omega
          rw [Function.update_noteq hslot]
          exact h i hlt
    · rw [if_neg hs]; exact h

theorem consRun_no_pending (t : List ConsStep) :
    ∀ (s : Cons), ByteInputs t → CursorsMod s → NoPendingTerminator s →
      CursorsMod (consRun t s) ∧ NoPendingTerminator (consRun t s) := by
  induction t with
  | nil => intro s _ hm h; exact ⟨hm, h⟩
  | cons st t ih =>
    intro s hb hm h
    cases st with
    | intr c =>
      simp only [ByteInputs] at hb
      exact ih _ hb.2 (consoleintr_cursors_mod c s hm) (consoleintr_no_pending c s hb.1 hm h)
    | read p copyout n =>
      simp only [ByteInputs] at hb
      refine ih _ hb (consoleread_loop_cursors_mod p copyout n n s.acquire [] hm) ?_
      obtain ⟨f1, f2, f3⟩ := consoleread_loop_frame p copyout n n s.acquire []
      intro i hi
      show (consoleread_loop p copyout n n s.acquire []).s.buf
          (slot ((consoleread_loop p copyout n n s.acquire []).s.w + i)) ≠ 10 ∧
        (consoleread_loop p copyout n n s.acquire []).s.buf
          (slot ((consoleread_loop p copyout n n s.acquire []).s.w + i)) ≠ 4
      have hi2 : i < sub32 (consoleread_loop p copyout n n s.acquire []).s.e
          (consoleread_loop p copyout n n s.acquire []).s.w := hi
      rw [f1, f2] at hi2
      rw [f1, f3]
      exact h i hi2
    | wake p copyout target n dst =>
      simp only [ByteInputs] at hb
      refine ih _ hb (consoleread_loop_cursors_mod p copyout target n s.acquire dst hm) ?_
      obtain ⟨f1, f2, f3⟩ := consoleread_loop_frame p copyout target n s.acquire dst
      intro i hi
      show (consoleread_loop p copyout target n s.acquire dst).s.buf
          (slot ((consoleread_loop p copyout target n s.acquire dst).s.w + i)) ≠ 10 ∧
        (consoleread_loop p copyout target n s.acquire dst).s.buf
          (slot ((consoleread_loop p copyout target n s.acquire dst).s.w + i)) ≠ 4
      have hi2 : i < sub32 (consoleread_loop p copyout target n s.acquire dst).s.e
          (consoleread_loop p copyout target n s.acquire dst).s.w := hi
      rw [f1, f2] at hi2
      rw [f1, f3]
      exact h i hi2

theorem kill_line_reaches_w (s : Cons) (hwf : s.WF) (h : NoPendingTerminator s) :
    (consoleintr 21 s).s.e = s.w := by
  obtain ⟨h1, h2, h3⟩ := hwf
  rw [consoleintr_U]
  obtain ⟨j, hj, hs, _, _, hstop⟩ :=
    killLine_spec (sub32 s.e s.w) { s with lock := true } [] ⟨h1, h2, h3⟩ (Nat.le_refl _)
  simp only at hj hs hstop
  rw [hs]
  show sub32 s.e j = s.w
  rcases hstop with hstop | hstop
  · exact hstop
  · by_contra hne
    have hjlt : j < sub32 s.e s.w := by
      simp only [sub32] at hj hne ⊢; omega
    have hb := (h (sub32 s.e s.w - j - 1) (by omega)).1
    have hslot : slot (s.w + (sub32 s.e s.w - j - 1)) = slot (sub32 (sub32 s.e j) 1) := by
      simp only [slot, Fin.mk.injEq]
      simp only [sub32] at hjlt ⊢
      omega
    rw [hslot] at hb
    exact hb hstop

/-- C20: no line terminator is ever left uncommitted. In every state reached
from the boot state `r = w = e = 0` by `consoleintr` steps whose inputs are
bytes and `consoleread` steps, no byte at a cursor position in `[w, e)` is a
newline or Ctrl-D; consequently `consoleintr(Ctrl-U)` in such a state ends
with `e = w`. -/
theorem no_uncommitted_terminator (t : List ConsStep) (hb : ByteInputs t) :
    NoPendingTerminator (consRun t Cons.init) ∧
    (consoleintr 21 (consRun t Cons.init)).s.e = (consRun t Cons.init).w := by
  have h0 : CursorsMod Cons.init := by decide
  have h1 : NoPendingTerminator Cons.init := by decide
  obtain ⟨hm, hn⟩ := consRun_no_pending t Cons.init hb h0 h1
  exact ⟨hn, kill_line_reaches_w _ hm.1 hn⟩

/-- The statement of C20 at a run that ends with two uncommitted bytes. -/
theorem no_uncommitted_terminator_witness :
    ByteInputs console_trace_tail ∧
    sub32 (consRun console_trace_tail Cons.init).e (consRun console_trace_tail Cons.init).w = 2 ∧
    NoPendingTerminator (consRun console_trace_tail Cons.init) ∧
    (consoleintr 21 (consRun console_trace_tail Cons.init)).s.e =
      (consRun console_trace_tail Cons.init).w :=
  ⟨by decide, by decide, no_uncommitted_terminator console_trace_tail (by decide)⟩


/-! ## The page allocator -/

theorem FreeList_unique (next : Nat → Nat) (l1 : List Nat) :
    ∀ (h : Nat) (l2 : List Nat), FreeList next h l1 → FreeList next h l2 → l1 = l2 := by
  induction l1 with
  | nil =>
    intro h l2 h1 h2
    cases l2 with
    | nil => rfl
    | cons q l2 =>
      simp only [FreeList] at h1 h2
      omega
  | cons p l1 ih =>
    intro h l2 h1 h2
    cases l2 with
    | nil =>
      simp only [FreeList] at h1 h2
      omega
    | cons q l2 =>
      simp only [FreeList] at h1 h2
      obtain ⟨a1, a2, a3, a4⟩ := h1
      obtain ⟨b1, b2, b3, b4⟩ := h2
      have hpq : p = q := by omega
      subst hpq
      rw [ih (next p) l2 a4 b4]

theorem FreeList_from_member (next : Nat → Nat) (l : List Nat) :
    ∀ (h p : Nat), FreeList next h l → p ∈ l →
      ∃ l2, FreeList next p l2 ∧ l2.length ≤ l.length := by
  induction l with
  | nil => intro h p _ hp; simp at hp
  | cons q l ih =>
    intro h p hl hp
    simp only [FreeList] at hl
    obtain ⟨a1, a2, a3, a4⟩ := hl
    rcases List.mem_cons.mp hp with rfl | hp2
    · exact ⟨p :: l, by unfold FreeList; exact ⟨rfl, a2, a3, a4⟩, Nat.le_refl _⟩
    · obtain ⟨l2, c1, c2⟩ := ih (next q) p a4 hp2
      exact ⟨l2, c1, by simp only [List.length_cons]; omega⟩

theorem FreeList_head_not_in_tail (next : Nat → Nat) (p : Nat) (l : List Nat) (h : Nat)
    (hl : FreeList next h (p :: l)) : p ∉ l := by
  intro hp
  have hl2 := hl
  simp only [FreeList] at hl2
  obtain ⟨a1, a2, a3, a4⟩ := hl2
  obtain ⟨l2, c1, c2⟩ := FreeList_from_member next l (next p) p a4 hp
  have hl3 : FreeList next p (p :: l) := by unfold FreeList; exact ⟨rfl, a2, a3, a4⟩
  have : p :: l = l2 := FreeList_unique next (p :: l) p l2 hl3 c1
  rw [← this] at c2
  simp only [List.length_cons] at c2
  omega

theorem FreeList_frame (next next2 : Nat → Nat) (l : List Nat) :
    ∀ (h : Nat), (∀ q, q ∈ l → next2 q = next q) → FreeList next h l → FreeList next2 h l := by
  induction l with
  | nil => intro h _ hl; exact hl
  | cons p l ih =>
    intro h hq hl
    simp only [FreeList] at hl ⊢
    obtain ⟨a1, a2, a3, a4⟩ := hl
    refine ⟨a1, a2, a3, ?_⟩
    rw [hq p (List.mem_cons_self p l)]
    exact ih (next p) (fun q hq2 => hq q (List.mem_cons_of_mem p hq2)) a4

theorem FreeList_aligned (next : Nat → Nat) (l : List Nat) :
    ∀ (h : Nat), FreeList next h l → ∀ q, q ∈ l → q ≠ 0 ∧ q % PGSIZE = 0 := by
  induction l with
  | nil => intro h _ q hq; simp at hq
  | cons p l ih =>
    intro h hl q hq
    simp only [FreeList] at hl
    obtain ⟨a1, a2, a3, a4⟩ := hl
    rcases List.mem_cons.mp hq with rfl | hq2
    · exact ⟨a2, a3⟩
    · exact ih (next p) a4 q hq2

theorem memset_outside (pa v : Nat) (next : Nat → Nat) (q : Nat) (h : ¬ InPage pa q) :
    memset pa v next q = next q := by
  unfold memset
  unfold InPage at h
  rw [if_neg h]

theorem not_InPage_of_aligned (pa q : Nat) (hpa : pa % PGSIZE = 0) (hq : q % PGSIZE = 0)
    (hne : q ≠ pa) : ¬ InPage pa q := by
  unfold InPage PGSIZE
  unfold PGSIZE at hpa hq
  omega

theorem kfree_bad (e pa : Nat) (k : Kmem) (h : pa % PGSIZE ≠ 0 ∨ pa < e ∨ pa ≥ PHYSTOP) :
    kfree e pa k = { k := k, panic := true } := by
  unfold kfree
  rw [if_pos h]

theorem kfree_good (e pa : Nat) (k : Kmem) (h : ¬ (pa % PGSIZE ≠ 0 ∨ pa < e ∨ pa ≥ PHYSTOP)) :
    kfree e pa k =
      { k := { lock := false, freelist := pa,
               next := Function.update (memset pa 1 k.next) pa k.freelist },
        panic := false } := by
  unfold kfree
  rw [if_neg h]
  rfl

theorem kalloc_empty (k : Kmem) (h : k.freelist = 0) :
    kalloc k = (0, { k with lock := false }) := by
  unfold kalloc
  simp [Kmem.acquire, Kmem.release, h]

theorem kalloc_nonempty (k : Kmem) (h : k.freelist ≠ 0) :
    kalloc k = (k.freelist, { lock := false, freelist := k.next k.freelist,
                              next := memset k.freelist 5 k.next }) := by
  unfold kalloc
  simp [Kmem.acquire, Kmem.release, h]

/-- C16: `kfree` rejects bad addresses fatally. With the linker symbol `end`
above address 0, for every address `pa`, `kfree(pa)` panics if and only if
`pa` is not a multiple of 4096, or `pa` is below `end`, or `pa ≥ PHYSTOP`, and
then the allocator is unchanged; for every other `pa` it makes `pa` the head
of the free list with the previous head as its `next` field, changing no
`next` field outside the page, so that the next `kalloc` returns `pa` and puts
the previous head back; when the previous list is `l` and `pa` is not already
on it, the new list is `pa :: l`. -/
theorem kfree_rejects_bad_addresses (kernel_end pa : Nat) (k : Kmem) (he : 0 < kernel_end) :
    ((kfree kernel_end pa k).panic = true ↔
      (pa % 4096 ≠ 0 ∨ pa < kernel_end ∨ pa ≥ PHYSTOP)) ∧
    ((kfree kernel_end pa k).panic = true → (kfree kernel_end pa k).k = k) ∧
    ((kfree kernel_end pa k).panic = false →
      (kfree kernel_end pa k).k.freelist = pa ∧
      (kfree kernel_end pa k).k.next pa = k.freelist ∧
      (∀ q, ¬ InPage pa q → (kfree kernel_end pa k).k.next q = k.next q) ∧
      (kalloc (kfree kernel_end pa k).k).1 = pa ∧
      (kalloc (kfree kernel_end pa k).k).2.freelist = k.freelist ∧
      (∀ l, FreeList k.next k.freelist l → pa ∉ l →
        FreeList (kfree kernel_end pa k).k.next (kfree kernel_end pa k).k.freelist (pa :: l))) := by
  by_cases h : pa % PGSIZE ≠ 0 ∨ pa < kernel_end ∨ pa ≥ PHYSTOP
  · rw [kfree_bad kernel_end pa k h]
    have h2 := h
    unfold PGSIZE at h2
    exact ⟨⟨fun _ => h2, fun _ => rfl⟩, fun _ => rfl, fun hf => by simp at hf⟩
  · rw [kfree_good kernel_end pa k h]
    have hal : pa % PGSIZE = 0 := by omega
    have hne : pa ≠ 0 := by omega
    have h2 : ¬ (pa % 4096 ≠ 0 ∨ pa < kernel_end ∨ pa ≥ PHYSTOP) := by
      unfold PGSIZE at h; exact h
    refine ⟨⟨fun hp => by simp at hp, fun hb => absurd hb h2⟩, fun hp => by simp at hp, fun _ => ?_⟩
    have hin : InPage pa pa := by unfold InPage PGSIZE; omega
    have hframe : ∀ q, ¬ InPage pa q →
        Function.update (memset pa 1 k.next) pa k.freelist q = k.next q := by
      intro q hq
      have hqne : q ≠ pa := fun hqp => hq (hqp ▸ hin)
      rw [Function.update_noteq hqne, memset_outside pa 1 k.next q hq]
    refine ⟨rfl, ?_, hframe, ?_, ?_, ?_⟩
    · show Function.update (memset pa 1 k.next) pa k.freelist pa = k.freelist
      rw [Function.update_same]
    · rw [kalloc_nonempty _ hne]
    · rw [kalloc_nonempty _ hne]
      show Function.update (memset pa 1 k.next) pa k.freelist pa = k.freelist
      rw [Function.update_same]
    · intro l hl hpa
      show FreeList (Function.update (memset pa 1 k.next) pa k.freelist) pa (pa :: l)
      unfold FreeList
      refine ⟨rfl, hne, hal, ?_⟩
      rw [Function.update_same]
      apply FreeList_frame k.next _ l k.freelist _ hl
      intro q hq
      have hqa := FreeList_aligned k.next l k.freelist hl q hq
      have hqne : q ≠ pa := fun hqp => hpa (hqp ▸ hq)
      exact hframe q (not_InPage_of_aligned pa q hal hqa.2 hqne)


/-- The statement of C16 for the first page freed at boot. -/
theorem kfree_rejects_bad_addresses_witness :
    0 < example_end ∧
    (kfree example_end 0x80100000 Kmem.init).panic = false ∧
    (kfree example_end 0x80100800 Kmem.init).panic = true ∧
    (kfree example_end 0x80000000 Kmem.init).panic = true ∧
    (kfree example_end 0x88000000 Kmem.init).panic = true ∧
    ((kfree example_end 0x80100000 Kmem.init).panic = true ↔
      (0x80100000 % 4096 ≠ 0 ∨ 0x80100000 < example_end ∨ 0x80100000 ≥ PHYSTOP)) ∧
    (kalloc (kfree example_end 0x80100000 Kmem.init).k).1 = 0x80100000 :=
  ⟨by decide, by decide, by decide, by decide, by decide,
    (kfree_rejects_bad_addresses example_end 0x80100000 Kmem.init (by decide)).1,
    ((kfree_rejects_bad_addresses example_end 0x80100000 Kmem.init (by decide)).2.2
      (by decide)).2.2.2.1⟩

/-- C17: `kalloc` returns 0 exactly when no page can be allocated. For every
allocator state, `kalloc` returns 0 if and only if the free list is empty, and
then the list stays empty and no `next` field changes; otherwise it returns
the page at the head, the free list becomes what the `next` field of the head
pointed to, and no `next` field outside the returned page changes; when the
list is `p :: l`, `kalloc` returns `p` and the list becomes `l`, which does
not hold `p`. -/
theorem kalloc_pops_head (k : Kmem) :
    ((kalloc k).1 = 0 ↔ k.freelist = 0) ∧
    (k.freelist = 0 → (kalloc k).2.freelist = 0 ∧ (kalloc k).2.next = k.next) ∧
    (k.freelist ≠ 0 → (kalloc k).1 = k.freelist ∧
      (kalloc k).2.freelist = k.next k.freelist ∧
      ∀ q, ¬ InPage k.freelist q → (kalloc k).2.next q = k.next q) ∧
    (FreeList k.next k.freelist [] →
      (kalloc k).1 = 0 ∧ FreeList (kalloc k).2.next (kalloc k).2.freelist []) ∧
    (∀ p l, FreeList k.next k.freelist (p :: l) →
      (kalloc k).1 = p ∧ FreeList (kalloc k).2.next (kalloc k).2.freelist l ∧ p ∉ l) := by
  by_cases h : k.freelist = 0
  · rw [kalloc_empty k h]
    refine ⟨⟨fun _ => h, fun _ => rfl⟩, fun _ => ⟨h, rfl⟩, fun hne => absurd h hne,
      fun hl => ⟨rfl, hl⟩, fun p l hl => ?_⟩
    unfold FreeList at hl
    omega
  · rw [kalloc_nonempty k h]
    refine ⟨⟨fun h0 => absurd h0 h, fun h0 => absurd h0 h⟩, fun h0 => absurd h0 h,
      fun _ => ⟨rfl, rfl, fun q hq => memset_outside _ 5 k.next q hq⟩,
      fun hl => ?_, fun p l hl => ?_⟩
    · unfold FreeList at hl
      exact absurd hl h
    · have hnot := FreeList_head_not_in_tail k.next p l k.freelist hl
      unfold FreeList at hl
      obtain ⟨a1, a2, a3, a4⟩ := hl
      refine ⟨a1, ?_, hnot⟩
      show FreeList (memset k.freelist 5 k.next) (k.next k.freelist) l
      rw [a1]
      apply FreeList_frame k.next _ l (k.next p) _ a4
      intro q hq
      have hqa := FreeList_aligned k.next l (k.next p) a4 q hq
      have hqne : q ≠ p := fun hqp => hnot (hqp ▸ hq)
      exact memset_outside p 5 k.next q (not_InPage_of_aligned p q a3 hqa.2 hqne)


/-- The statement of C17 after three pages have been freed: the last page
freed is returned and the other two remain. -/
theorem kalloc_pops_head_example :
    FreeList three_free.next three_free.freelist [0x80102000, 0x80101000, 0x80100000] ∧
    (kalloc three_free).1 = 0x80102000 ∧
    FreeList (kalloc three_free).2.next (kalloc three_free).2.freelist
      [0x80101000, 0x80100000] ∧
    (kalloc Kmem.init).1 = 0 := by
  decide


/-! ## Committed input and keystrokes -/

/-- C21: the interrupt side never disturbs committed, unread input. For every
console state with `r ≤ w ≤ e` and `e - r ≤ 128` and every input `c`,
`consoleintr(c)` leaves `r` unchanged, leaves `w` or moves it to the new `e`
(so `w` does not decrease: as a count when `e + 1` does not wrap, and
relative to `r` in `uint` arithmetic always), and leaves the byte at every
cursor position in `[r, w)` unchanged; no slot other than `e mod 128` is
written, it is written only when `e - r < 128`, and then it holds no byte at
a cursor position in `[r, e)`. -/
theorem consoleintr_preserves_committed (c : Nat) (s : Cons) (h1 : s.r ≤ s.w) (h2 : s.w ≤ s.e)
    (h3 : s.e - s.r ≤ INPUT_BUF_SIZE) (he : s.e < 4294967296) :
    (consoleintr c s).s.r = s.r ∧
    ((consoleintr c s).s.w = s.w ∨ (consoleintr c s).s.w = add32 s.e 1) ∧
    (s.e + 1 < 4294967296 → s.w ≤ (consoleintr c s).s.w) ∧
    sub32 s.w s.r ≤ sub32 (consoleintr c s).s.w (consoleintr c s).s.r ∧
    (∀ i, s.r ≤ i → i < s.w → (consoleintr c s).s.buf (slot i) = s.buf (slot i)) ∧
    (∀ x, x ≠ slot s.e → (consoleintr c s).s.buf x = s.buf x) ∧
    ((consoleintr c s).s.buf ≠ s.buf → s.e - s.r < INPUT_BUF_SIZE) ∧
    (s.e - s.r < INPUT_BUF_SIZE → ∀ i, s.r ≤ i → i < s.e → slot i ≠ slot s.e) := by
  unfold INPUT_BUF_SIZE at h3 ⊢
  have hslots : s.e - s.r < 128 → ∀ i, s.r ≤ i → i < s.e → slot i ≠ slot s.e := by
    intro hlt i hi1 hi2
    simp only [slot, ne_eq, Fin.mk.injEq]
    omega
  have hsame : sub32 s.w s.r ≤ sub32 s.w s.r := Nat.le_refl _
  by_cases c1 : c = 16
  · subst c1; rw [consoleintr_P]
    exact ⟨rfl, Or.inl rfl, fun _ => Nat.le_refl _, hsame, fun _ _ _ => rfl, fun _ _ => rfl,
      fun hne => absurd rfl hne, hslots⟩
  by_cases c2 : c = 21
  · subst c2; rw [consoleintr_U]
    obtain ⟨f1, f2, f3, f4⟩ := killLine_frame (sub32 s.e s.w) { s with lock := true } []
    simp only at f1 f2 f3
    refine ⟨f1, Or.inl f2, fun _ => by show _ ≤ (killLine _ _ _).1.w; rw [f2], ?_,
      fun i _ _ => by show (killLine _ _ _).1.buf (slot i) = _; rw [f3],
      fun x _ => by show (killLine _ _ _).1.buf x = _; rw [f3],
      fun hne => absurd f3 hne, hslots⟩
    show sub32 s.w s.r ≤ sub32 (killLine _ _ _).1.w (killLine _ _ _).1.r
    rw [f1, f2]
  by_cases c3 : c = 8 ∨ c = 127
  · rw [consoleintr_H c s c3]
    split_ifs <;>
    exact ⟨rfl, Or.inl rfl, fun _ => Nat.le_refl _, hsame, fun _ _ _ => rfl, fun _ _ => rfl,
      fun hne => absurd rfl hne, hslots⟩
  · rw [consoleintr_default c s c1 c2 (by omega) (by omega)]
    by_cases hs : c ≠ 0 ∧ sub32 s.e s.r < 128
    · rw [if_pos hs]
      have hlt : s.e - s.r < 128 := by
        have := hs.2
        simp only [sub32] at this
        omega
      have hframe : ∀ i, s.r ≤ i → i < s.w →
          Function.update s.buf (slot s.e) ((if c = 13 then 10 else c) % 256) (slot i) =
            s.buf (slot i) := by
        intro i hi1 hi2
        rw [Function.update_noteq (hslots hlt i hi1 (by omega))]
      have hother : ∀ x, x ≠ slot s.e →
          Function.update s.buf (slot s.e) ((if c = 13 then 10 else c) % 256) x = s.buf x :=
        fun x hx => Function.update_noteq hx _ _
      by_cases hl : (if c = 13 then 10 else c) = 10 ∨ (if c = 13 then 10 else c) = 4 ∨
            sub32 (add32 s.e 1) s.r = 128
      · rw [if_pos hl]
        refine ⟨rfl, Or.inr rfl, fun hno => ?_, ?_, hframe, hother, fun _ => hlt, hslots⟩
        · show s.w ≤ add32 s.e 1
          simp only [add32]; omega
        · show sub32 s.w s.r ≤ sub32 (add32 s.e 1) s.r
          simp only [sub32, add32]; omega
      · rw [if_neg hl]
        exact ⟨rfl, Or.inl rfl, fun _ => Nat.le_refl _, hsame, hframe, hother, fun _ => hlt,
          hslots⟩
    · rw [if_neg hs]
      exact ⟨rfl, Or.inl rfl, fun _ => Nat.le_refl _, hsame, fun _ _ _ => rfl, fun _ _ => rfl,
        fun hne => absurd rfl hne, hslots⟩


/-- The statement of C21 for a letter typed after `a`, `b`, newline, `c`,
`d`. -/
theorem consoleintr_preserves_committed_witness :
    line_then_tail.r ≤ line_then_tail.w ∧ line_then_tail.w ≤ line_then_tail.e ∧
    line_then_tail.e - line_then_tail.r ≤ INPUT_BUF_SIZE ∧ line_then_tail.e < 4294967296 ∧
    (consoleintr 101 line_then_tail).s.r = line_then_tail.r ∧
    ((consoleintr 101 line_then_tail).s.w = line_then_tail.w ∨
      (consoleintr 101 line_then_tail).s.w = add32 line_then_tail.e 1) ∧
    (consoleintr 101 line_then_tail).s.region 3 = [97, 98, 10] :=
  ⟨by decide, by decide, by decide, by decide,
    (consoleintr_preserves_committed 101 line_then_tail (by decide) (by decide) (by decide)
      (by decide)).1,
    (consoleintr_preserves_committed 101 line_then_tail (by decide) (by decide) (by decide)
      (by decide)).2.1,
    by decide⟩

/-- C23: backspace undoes an ordinary keystroke unless that keystroke filled
the buffer. For every console state that satisfies the cursor invariant and
every byte `c` that is not 0, newline, carriage return, Ctrl-D, Ctrl-P,
Ctrl-U, Ctrl-H or 0x7f: if `e - r < 127`, `consoleintr(c)` advances `e` by one
and leaves `w`, and a following `consoleintr` of Ctrl-H or 0x7f restores `r`,
`w` and `e` and emits one BACKSPACE; if `e - r = 127`, the byte `c` fills the
buffer and is committed at once (`w = e`, with a wakeup), and the following
backspace emits nothing and changes nothing, so `c` stays in the committed
input. -/
theorem backspace_undoes_keystroke (c b : Nat) (s : Cons) (hinv : CursorsMod s)
    (hc : c < 256) (hb : b = 8 ∨ b = 127)
    (hord : c ≠ 0 ∧ c ≠ 10 ∧ c ≠ 13 ∧ c ≠ 4 ∧ c ≠ 16 ∧ c ≠ 21 ∧ c ≠ 8 ∧ c ≠ 127) :
    (sub32 s.e s.r < 127 →
      (consoleintr c s).s.e = add32 s.e 1 ∧ (consoleintr c s).s.w = s.w ∧
      (consoleintr b (consoleintr c s).s).s.r = s.r ∧
      (consoleintr b (consoleintr c s).s).s.w = s.w ∧
      (consoleintr b (consoleintr c s).s).s.e = s.e ∧
      (consoleintr b (consoleintr c s).s).echo = [BACKSPACE]) ∧
    (sub32 s.e s.r = 127 →
      (consoleintr c s).s.e = add32 s.e 1 ∧
      (consoleintr c s).s.w = (consoleintr c s).s.e ∧
      (consoleintr c s).wakeups = [Chan.cons_r] ∧
      (consoleintr c s).s.buf (slot s.e) = c ∧
      (consoleintr b (consoleintr c s).s).echo = [] ∧
      (consoleintr b (consoleintr c s).s).s.r = (consoleintr c s).s.r ∧
      (consoleintr b (consoleintr c s).s).s.w = (consoleintr c s).s.w ∧
      (consoleintr b (consoleintr c s).s).s.e = (consoleintr c s).s.e ∧
      (consoleintr b (consoleintr c s).s).s.buf = (consoleintr c s).s.buf) := by
  obtain ⟨⟨w1, w2, w3⟩, i1, i2⟩ := hinv
  obtain ⟨o1, o2, o3, o4, o5, o6, o7, o8⟩ := hord
  have hn : (if c = 13 then 10 else c) = c := if_neg o3
  have hmod : c % 256 = c := Nat.mod_eq_of_lt hc
  rw [consoleintr_default c s o5 o6 o7 o8, hn, hmod]
  constructor
  · intro hlt
    have hs : c ≠ 0 ∧ sub32 s.e s.r < 128 := ⟨o1, by omega⟩
    have hl : ¬ (c = 10 ∨ c = 4 ∨ sub32 (add32 s.e 1) s.r = 128) := by
      simp only [sub32, add32] at hlt ⊢; omega
    rw [if_pos hs, if_neg hl, consoleintr_H b _ hb]
    have hne : add32 s.e 1 ≠ s.w := by
      simp only [sub32, add32] at hlt i1 ⊢; omega
    have hback : sub32 (add32 s.e 1) 1 = s.e := by simp only [sub32, add32]; omega
    split_ifs with h
    · exact ⟨rfl, rfl, rfl, rfl, hback, rfl⟩
    · exact absurd hne h
  · intro heq
    have hs : c ≠ 0 ∧ sub32 s.e s.r < 128 := ⟨o1, by omega⟩
    have hl : c = 10 ∨ c = 4 ∨ sub32 (add32 s.e 1) s.r = 128 := by
      right; right
      simp only [sub32, add32] at heq ⊢; omega
    rw [if_pos hs, if_pos hl, consoleintr_H b _ hb]
    have hst : Function.update s.buf (slot s.e) c (slot s.e) = c := Function.update_same _ _ _
    split_ifs with h
    · exact absurd rfl h
    · exact ⟨rfl, rfl, rfl, hst, rfl, rfl, rfl, rfl, rfl⟩

set_option maxRecDepth 16384 in
/-- The statement of C23 for the letter `e` typed, and erased, after `a`, `b`,
newline, `c`, `d`, together with the letter `e` typed into a buffer that holds
127 uncommitted bytes: it is committed and the backspace erases nothing. -/
theorem backspace_undoes_keystroke_witness :
    CursorsMod line_then_tail ∧ sub32 line_then_tail.e line_then_tail.r < 127 ∧
    (consoleintr 8 (consoleintr 101 line_then_tail).s).s.e = line_then_tail.e ∧
    sub32 almost_full.e almost_full.r = 127 ∧
    (consoleintr 101 almost_full).s.w = 128 ∧
    (consoleintr 8 (consoleintr 101 almost_full).s).s.e = 128 ∧
    (consoleintr 8 (consoleintr 101 almost_full).s).s.buf (slot 127) = 101 ∧
    (consoleintr 8 (consoleintr 101 almost_full).s).echo = [] ∧
    (consoleintr 101 line_then_tail).s.e = add32 line_then_tail.e 1 :=
  ⟨by decide, by decide,
    ((backspace_undoes_keystroke 101 8 line_then_tail (by decide) (by decide) (by decide)
      (by decide)).1 (by decide)).2.2.2.2.1,
    by decide, by decide, by decide, by decide, by decide,
    ((backspace_undoes_keystroke 101 8 line_then_tail (by decide) (by decide) (by decide)
      (by decide)).1 (by decide)).1⟩


/-! ## Read-cursor accounting -/

theorem CopyFailedAfter_shift (copyout : Nat → Bool) (n d c : Nat) (s : Cons) (dst : List Nat)
    (hwf : s.WF) (hne : s.r ≠ s.w) (hc : s.buf (slot s.r) ≠ 10) :
    CopyFailedAfter copyout (n + 1) s dst (d + 1) ↔
      CopyFailedAfter copyout n { s with r := add32 s.r 1 } (dst ++ [c]) d := by
  obtain ⟨h1, h2, h3⟩ := hwf
  unfold CopyFailedAfter
  have e1 : (d + 1 < sub32 s.w s.r) ↔ (d < sub32 s.w (add32 s.r 1)) := by
    simp only [sub32, add32]; omega
  have e2 : slot (add32 s.r 1 + d) = slot (s.r + (d + 1)) := by
    rw [slot_add32, show s.r + 1 + d = s.r + (d + 1) by omega]
  have e3 : (dst ++ [c]).length + d = dst.length + (d + 1) := by
    simp only [List.length_append, List.length_singleton]; omega
  have e4 : (d + 1 = 0 ∨ s.buf (slot (s.r + (d + 1 - 1))) ≠ 10) ↔
      (d = 0 ∨ s.buf (slot (add32 s.r 1 + (d - 1))) ≠ 10) := by
    cases d with
    | zero =>
      simp only [Nat.zero_add, Nat.sub_self, Nat.add_zero]
      constructor
      · intro _; left; trivial
      · intro _; right; exact hc
    | succ d =>
      have e5 : slot (add32 s.r 1 + (d + 1 - 1)) = slot (s.r + (d + 1 + 1 - 1)) := by
        rw [slot_add32, show s.r + 1 + (d + 1 - 1) = s.r + (d + 1 + 1 - 1) by omega]
      rw [e5]
      constructor
      · rintro (h | h)
        · omega
        · right; exact h
      · rintro (h | h)
        · omega
        · right; exact h
  show (d + 1 < n + 1 ∧ d + 1 < sub32 s.w s.r ∧ _ ∧ _ ∧ _) ↔
    (d < n ∧ d < sub32 s.w (add32 s.r 1) ∧ _ ∧
      s.buf (slot (add32 s.r 1 + d)) ≠ 4 ∧ copyout ((dst ++ [c]).length + d) = false)
  rw [e1, e2, e3, e4]
  constructor
  · rintro ⟨a, b⟩; exact ⟨by omega, b⟩
  · rintro ⟨a, b⟩; exact ⟨by omega, b⟩

theorem consoleread_loop_accounting (p : Proc) (copyout : Nat → Bool) (target : Nat) (n : Nat) :
    ∀ (s : Cons) (dst : List Nat), s.WF → n ≤ target →
      ∃ d, d ≤ n ∧ (consoleread_loop p copyout target n s dst).dst = dst ++ s.region d ∧
        ((((d = 0 ∧ EofConsumedFirst target n s) ∨ CopyFailedAfter copyout n s dst d) ∧
            (consoleread_loop p copyout target n s dst).s.r = add32 s.r (d + 1) ∧
            (consoleread_loop p copyout target n s dst).outcome =
              ReadOutcome.ret (target - (n - d) : Nat)) ∨
         (¬ ((d = 0 ∧ EofConsumedFirst target n s) ∨ CopyFailedAfter copyout n s dst d) ∧
            (consoleread_loop p copyout target n s dst).s.r = add32 s.r d ∧
            ((consoleread_loop p copyout target n s dst).outcome =
                ReadOutcome.ret (target - (n - d) : Nat) ∨
              (consoleread_loop p copyout target n s dst).outcome = ReadOutcome.ret (-1) ∨
              ∃ q m, (consoleread_loop p copyout target n s dst).outcome =
                ReadOutcome.sleeping q m))) := by
  induction n with
  | zero =>
    intro s dst hwf _
    obtain ⟨h1, h2, h3⟩ := hwf
    have h0 : add32 s.r 0 = s.r := by simp only [add32]; omega
    rw [consoleread_loop_zero]
    refine ⟨0, Nat.le_refl _, by simp [Cons.region], Or.inr ⟨?_, h0.symm, Or.inl rfl⟩⟩
    rintro (⟨_, hq, _⟩ | ⟨hq, _⟩) <;> omega
  | succ n ih =>
    intro s dst hwf hcall
    obtain ⟨h1, h2, h3⟩ := hwf
    have h0 : add32 s.r 0 = s.r := by simp only [add32]; omega
    have hreg0 : dst = dst ++ s.region 0 := by simp [Cons.region]
    by_cases e1 : s.r = s.w
    · -- the buffer is empty: the call fails or sleeps
      have hnc : ¬ ((0 = 0 ∧ EofConsumedFirst target (n + 1) s) ∨
          CopyFailedAfter copyout (n + 1) s dst 0) := by
        rintro (⟨_, _, hq, _⟩ | ⟨_, hq, _⟩)
        · exact hq e1
        · rw [e1] at hq; simp only [sub32] at hq; omega
      rw [consoleread_loop, if_pos e1]
      by_cases hk : killed p ≠ 0
      · rw [if_pos hk]
        exact ⟨0, Nat.zero_le _, hreg0, Or.inr ⟨hnc, h0.symm, Or.inr (Or.inl rfl)⟩⟩
      · rw [if_neg hk]
        exact ⟨0, Nat.zero_le _, hreg0, Or.inr ⟨hnc, h0.symm, Or.inr (Or.inr ⟨_, _, rfl⟩)⟩⟩
    · have hpos : 0 < sub32 s.w s.r := by simp only [sub32]; omega
      by_cases e2 : s.buf (slot s.r) = 4
      · -- Ctrl-D at the read cursor
        rw [consoleread_loop_eof p copyout target n s dst h1 e1 e2]
        by_cases e3 : n + 1 < target
        · rw [if_pos e3]
          refine ⟨0, Nat.zero_le _, hreg0, Or.inr ⟨?_, h0.symm, Or.inl rfl⟩⟩
          rintro (⟨_, _, _, _, hq⟩ | ⟨_, _, _, hq, _⟩)
          · exact hq e3
          · exact hq e2
        · rw [if_neg e3]
          exact ⟨0, Nat.zero_le _, hreg0,
            Or.inl ⟨Or.inl ⟨rfl, Nat.succ_pos n, e1, e2, e3⟩, rfl, rfl⟩⟩
      · by_cases e4 : copyout dst.length = false
        · -- the copy of the first byte fails
          rw [consoleread_loop_copyfail p copyout target n s dst e1 e2 e4]
          exact ⟨0, Nat.zero_le _, hreg0,
            Or.inl ⟨Or.inr ⟨Nat.succ_pos n, hpos, Or.inl rfl, e2, e4⟩, rfl, rfl⟩⟩
        · have e4t : copyout dst.length = true := by
            cases h : copyout dst.length with
            | true => rfl
            | false => exact absurd h e4
          have hreg1 : s.region 1 = [s.buf (slot s.r)] := by
            simp [Cons.region, List.range_succ]
          by_cases e5 : s.buf (slot s.r) = 10
          · -- a newline is delivered and ends the call
            rw [consoleread_loop_newline p copyout target n s dst e1 e5 e4t]
            refine ⟨1, by omega, by rw [hreg1, e5], Or.inr ⟨?_, rfl, Or.inl ?_⟩⟩
            · rintro (⟨hq, _⟩ | ⟨_, _, hq, _⟩)
              · omega
              · rcases hq with hq | hq
                · omega
                · exact hq e5
            · congr 2
          · -- an ordinary byte is delivered and the loop goes on
            have hstep : consoleread_loop p copyout target (n + 1) s dst =
                consoleread_loop p copyout target n { s with r := add32 s.r 1 }
                  (dst ++ [s.buf (slot s.r)]) := by
              have := consoleread_loop_ordinary p copyout target 1 n s dst ⟨h1, h2, h3⟩
                (by omega)
                (fun i hi => by
                  have : i = 0 := by omega
                  subst this
                  exact ⟨e5, e2⟩)
                (fun i hi => by
                  have : i = 0 := by omega
                  subst this
                  exact e4t)
              rw [this, hreg1]
            have hwf1 : ({ s with r := add32 s.r 1 } : Cons).WF :=
              ⟨by simp only [add32]; omega, h2, h3⟩
            obtain ⟨d, hd, hdst, hcase⟩ := ih { s with r := add32 s.r 1 }
              (dst ++ [s.buf (slot s.r)]) hwf1 (by omega)
            have hshift := CopyFailedAfter_shift copyout n d (s.buf (slot s.r)) s dst
              ⟨h1, h2, h3⟩ e1 e5
            have hcause : ((d + 1 = 0 ∧ EofConsumedFirst target (n + 1) s) ∨
                CopyFailedAfter copyout (n + 1) s dst (d + 1)) ↔
                ((d = 0 ∧ EofConsumedFirst target n { s with r := add32 s.r 1 }) ∨
                  CopyFailedAfter copyout n { s with r := add32 s.r 1 }
                    (dst ++ [s.buf (slot s.r)]) d) := by
              constructor
              · rintro (⟨hq, _⟩ | hq)
                · omega
                · exact Or.inr (hshift.mp hq)
              · rintro (⟨_, _, _, _, hq⟩ | hq)
                · exact absurd (by omega : n < target) hq
                · exact Or.inr (hshift.mpr hq)
            have hr1 : add32 (add32 s.r 1) (d + 1) = add32 s.r (d + 1 + 1) := by
              simp only [add32]; omega
            have hr2 : add32 (add32 s.r 1) d = add32 s.r (d + 1) := by
              simp only [add32]; omega
            have hv : target - (n - d) = target - (n + 1 - (d + 1)) := by omega
            rw [hstep]
            refine ⟨d + 1, by omega, ?_, ?_⟩
            · rw [hdst, region_succ, List.append_assoc]; rfl
            · rcases hcase with ⟨hc1, hc2, hc3⟩ | ⟨hc1, hc2, hc3⟩
              · left
                refine ⟨hcause.mpr hc1, ?_, ?_⟩
                · rw [hc2]; exact hr1
                · rw [hc3, hv]
              · right
                refine ⟨fun hq => hc1 (hcause.mp hq), ?_, ?_⟩
                · rw [hc2]; exact hr2
                · rw [← hv]; exact hc3

/-- C22: read-cursor accounting in `consoleread`. For every stretch of the
loop of a `consoleread` call (from its entry or from a wakeup, with `dst`
delivered so far and `dst.length + n = target`), let `d` be the number of
bytes it delivers. Every count `k ≥ 0` it returns is the number of bytes
delivered in the call, `dst.length + d`. When the stretch ends by consuming
Ctrl-D as the first byte of the call (then nothing was delivered), or because
a copy-out fails, the read cursor has advanced by `d + 1` and the call returns
that count: the byte whose copy failed has left the buffer, undelivered and
uncounted. In every other case the read cursor has advanced by exactly `d`. -/
theorem consoleread_cursor_accounting (p : Proc) (copyout : Nat → Bool) (target n : Nat)
    (s : Cons) (dst : List Nat) (hwf : s.WF) (hcall : dst.length + n = target) :
    ∃ d, (consoleread_loop p copyout target n s dst).dst = dst ++ s.region d ∧
      (∀ k : Int, (consoleread_loop p copyout target n s dst).outcome = ReadOutcome.ret k →
        0 ≤ k → k = ((dst.length + d : Nat) : Int)) ∧
      (EofConsumedFirst target n s → dst = [] ∧ d = 0) ∧
      ((EofConsumedFirst target n s ∨ CopyFailedAfter copyout n s dst d) →
        (consoleread_loop p copyout target n s dst).s.r = add32 s.r (d + 1) ∧
        (consoleread_loop p copyout target n s dst).outcome =
          ReadOutcome.ret ((dst.length + d : Nat) : Int)) ∧
      (¬ (EofConsumedFirst target n s ∨ CopyFailedAfter copyout n s dst d) →
        (consoleread_loop p copyout target n s dst).s.r = add32 s.r d) := by
  obtain ⟨d, hd, hdst, hcase⟩ := consoleread_loop_accounting p copyout target n s dst hwf
    (by omega)
  have hval : target - (n - d) = dst.length + d := by omega
  rw [hval] at hcase
  have heof0 : EofConsumedFirst target n s → dst = [] ∧ d = 0 := by
    intro he
    obtain ⟨q1, q2, q3, q4⟩ := he
    have hn1 : n = (n - 1) + 1 := by omega
    have hres := consoleread_loop_eof p copyout target (n - 1) s dst hwf.1 q2 q3
    rw [← hn1] at hres
    have hlen : (dst ++ s.region d).length = dst.length := by rw [← hdst, hres]
    rw [List.length_append, region_length] at hlen
    exact ⟨List.length_eq_zero.mp (by omega), by omega⟩
  have hcauses : (EofConsumedFirst target n s ∨ CopyFailedAfter copyout n s dst d) ↔
      ((d = 0 ∧ EofConsumedFirst target n s) ∨ CopyFailedAfter copyout n s dst d) := by
    constructor
    · rintro (h | h)
      · exact Or.inl ⟨(heof0 h).2, h⟩
      · exact Or.inr h
    · rintro (⟨_, h⟩ | h)
      · exact Or.inl h
      · exact Or.inr h
  refine ⟨d, hdst, ?_, heof0, ?_, ?_⟩
  · intro k hk hk0
    rcases hcase with ⟨_, _, ho⟩ | ⟨_, _, ho | ho | ⟨q, m, ho⟩⟩
    · rw [ho] at hk; exact (ReadOutcome.ret.inj hk).symm
    · rw [ho] at hk; exact (ReadOutcome.ret.inj hk).symm
    · rw [ho] at hk
      have := ReadOutcome.ret.inj hk
      omega
    · rw [ho] at hk; exact ReadOutcome.noConfusion hk
  · intro hc
    rcases hcase with ⟨_, hr, ho⟩ | ⟨hn, _, _⟩
    · exact ⟨hr, ho⟩
    · exact absurd (hcauses.mp hc) hn
  · intro hnc
    rcases hcase with ⟨hc, _, _⟩ | ⟨_, hr, _⟩
    · exact absurd (hcauses.mpr hc) hnc
    · exact hr

/-- The statement of C22 at three reads: a read whose copy-out fails after one
byte returns 1 with `r` advanced by 2; a read that meets Ctrl-D first returns
0 with `r` advanced by 1; a read of a whole line of three bytes returns 3 with
`r` advanced by 3. -/
theorem consoleread_cursor_accounting_witness :
    line_then_tail.WF ∧
    CopyFailedAfter copy_one 10 line_then_tail.acquire [] 1 ∧
    (consoleread task_running copy_one 10 line_then_tail).outcome = ReadOutcome.ret 1 ∧
    (consoleread task_running copy_one 10 line_then_tail).s.r = add32 line_then_tail.r 2 ∧
    EofConsumedFirst 1 1 eof_only.acquire ∧
    (consoleread task_running copy_ok 1 eof_only).outcome = ReadOutcome.ret 0 ∧
    (consoleread task_running copy_ok 1 eof_only).s.r = add32 eof_only.r 1 ∧
    (consoleread task_running copy_ok 10 line_then_tail).outcome = ReadOutcome.ret 3 ∧
    (consoleread task_running copy_ok 10 line_then_tail).s.r = add32 line_then_tail.r 3 ∧
    ∃ d, (consoleread_loop task_running copy_one 10 10 line_then_tail.acquire []).dst =
        [] ++ line_then_tail.acquire.region d ∧
      (∀ k : Int, (consoleread_loop task_running copy_one 10 10 line_then_tail.acquire []).outcome =
          ReadOutcome.ret k → 0 ≤ k → k = ((([] : List Nat).length + d : Nat) : Int)) ∧
      (EofConsumedFirst 10 10 line_then_tail.acquire → ([] : List Nat) = [] ∧ d = 0) ∧
      ((EofConsumedFirst 10 10 line_then_tail.acquire ∨
          CopyFailedAfter copy_one 10 line_then_tail.acquire [] d) →
        (consoleread_loop task_running copy_one 10 10 line_then_tail.acquire []).s.r =
          add32 line_then_tail.acquire.r (d + 1) ∧
        (consoleread_loop task_running copy_one 10 10 line_then_tail.acquire []).outcome =
          ReadOutcome.ret ((([] : List Nat).length + d : Nat) : Int)) ∧
      (¬ (EofConsumedFirst 10 10 line_then_tail.acquire ∨
          CopyFailedAfter copy_one 10 line_then_tail.acquire [] d) →
        (consoleread_loop task_running copy_one 10 10 line_then_tail.acquire []).s.r =
          add32 line_then_tail.acquire.r d) :=
  ⟨by decide, by decide, by decide, by decide, by decide, by decide, by decide, by decide,
    by decide,
    consoleread_cursor_accounting task_running copy_one 10 10 line_then_tail.acquire []
      (by decide) (by decide)⟩

/-! ## Panic mode -/

theorem uartputc_sync_wait_finds (idle : Nat → Bool) (fuel : Nat) :
    ∀ (i j : Nat), j < fuel → idle (i + j) = true →
      ∃ m, uartputc_sync_wait idle fuel i = some m := by
  induction fuel with
  | zero => intro i j hj _; omega
  | succ f ih =>
    intro i j hj hidle
    rw [uartputc_sync_wait]
    by_cases h : idle i = false
    · rw [if_pos h]
      cases j with
      | zero => simp only [Nat.add_zero] at hidle; rw [hidle] at h; exact Bool.noConfusion h
      | succ j =>
        apply ih (i + 1) j (by omega)
        rw [show i + 1 + j = i + (j + 1) by omega]; exact hidle
    · rw [if_neg h]; exact ⟨i, rfl⟩

theorem uartputc_sync_writes (idle : Nat → Bool) (fuel c noff j : Nat) (hj : j < fuel)
    (hidle : idle j = true) :
    uartputc_sync 0 idle fuel c noff =
      { noff := noff, thr := [c % 256], outcome := SyncOutcome.done } := by
  obtain ⟨m, hm⟩ := uartputc_sync_wait_finds idle fuel 0 j hj (by simpa using hidle)
  unfold uartputc_sync
  simp [hm]

/-- C24: panic mode stops all output. Whenever the flag `panicked` is non-zero
on entry, `uartputc(c)` and `uartputc_sync(c)` both end in the endless loop
`for(;;)`, whatever the device does and however long it is observed; neither
writes THR, and `uartputc` changes neither `uart_tx_r`, `uart_tx_w` nor the
transmit buffer. -/
theorem panic_stops_output (panicked : Int) (hp : panicked ≠ 0) (p : Proc) (c : Nat)
    (idle : Nat → Bool) (s : Uart) (idle2 : Nat → Bool) (fuel c2 noff : Nat) :
    (uartputc panicked p c idle s).outcome = PutOutcome.spinning ∧
    (uartputc panicked p c idle s).outcome.thr = [] ∧
    (uartputc panicked p c idle s).s.r = s.r ∧
    (uartputc panicked p c idle s).s.w = s.w ∧
    (uartputc panicked p c idle s).s.buf = s.buf ∧
    (uartputc_sync panicked idle2 fuel c2 noff).outcome = SyncOutcome.spinning ∧
    (uartputc_sync panicked idle2 fuel c2 noff).thr = [] := by
  unfold uartputc uartputc_sync
  rw [if_pos hp, if_pos hp]
  exact ⟨rfl, rfl, rfl, rfl, rfl, rfl, rfl⟩

/-- The statement of C24 with `panicked = 1`, two bytes buffered and an idle
device. -/
theorem panic_stops_output_witness :
    (1 : Int) ≠ 0 ∧
    (uartputc 1 task_running 65 tx_idle tx_two).outcome = PutOutcome.spinning ∧
    (uartputc 1 task_running 65 tx_idle tx_two).outcome.thr = [] ∧
    (uartputc 1 task_running 65 tx_idle tx_two).s.r = tx_two.r ∧
    (uartputc 1 task_running 65 tx_idle tx_two).s.w = tx_two.w ∧
    (uartputc 1 task_running 65 tx_idle tx_two).s.buf = tx_two.buf ∧
    (uartputc_sync 1 tx_idle 8 65 0).outcome = SyncOutcome.spinning ∧
    (uartputc_sync 1 tx_idle 8 65 0).thr = [] :=
  ⟨by decide, panic_stops_output 1 (by decide) task_running 65 tx_idle tx_two tx_idle 8 65 0⟩


end Xv6
